import Mathlib

/-!
Verification of the notes ingestion pipeline (db/ingest.ts) and of the
read-only MCP query surface (mcp/server.ts) of the notes repository.

The SQLite schema and every prepared statement of db/ingest.ts are embedded
as pure functions over an explicit `Store` state.  External capabilities
(the filesystem read plus gray-matter front-matter extraction, the
RecursiveCharacterTextSplitter, and the ollama embedding endpoint) are
supplied through an `Env` record, mirroring the fact that they are opaque
libraries from the point of view of the repository code.  Embedding entries
are modelled as exact rationals standing for the stored 32-bit floats; the
claims under scrutiny never depend on float rounding, only on vector
presence, dimension and the ordering of distances.
-/

/-- A row of the `notes` table (db/ingest.ts, create table notes). -/
structure Note where
  id : Nat
  file_path : String
  title : Option String
  description : Option String
  content : String
deriving DecidableEq, Repr

/-- A row of the `tags` table (db/ingest.ts, create table tags). -/
structure Tag where
  id : Nat
  name : String
deriving DecidableEq, Repr

/-- A row of the `notes_tags` junction table. -/
structure NoteTag where
  note_id : Nat
  tag_id : Nat
deriving DecidableEq, Repr

/-- A row of the `chunks` table. -/
structure Chunk where
  id : Nat
  note_id : Nat
  chunk_index : Nat
  content : String
deriving DecidableEq, Repr

/-- A row of the `vec_chunks` vec0 virtual table (chunk_id primary key,
chunk_embeddings float[768]). -/
structure VecChunk where
  chunk_id : Nat
  chunk_embeddings : List Rat
deriving DecidableEq, Repr

/-- The SQLite database state: the five tables of db/ingest.ts together with
the autoincrement watermarks of the three rowid tables (SQLite AUTOINCREMENT
ids are strictly increasing and never reused, which a counter models
exactly). -/
structure Store where
  notes : List Note
  tags : List Tag
  notesTags : List NoteTag
  chunks : List Chunk
  vecChunks : List VecChunk
  nextNoteId : Nat
  nextTagId : Nat
  nextChunkId : Nat
deriving DecidableEq, Repr

/-- A freshly created database: empty tables, rowids starting at 1. -/
def emptyStore : Store := ⟨[], [], [], [], [], 1, 1, 1⟩

/-- Prepared statement `upsertNote`: insert into notes (file_path, content,
title, description) values (...) on conflict(file_path) do update set
content, title, description returning id. -/
def upsertNote (s : Store) (fp : String) (title description : Option String)
    (content : String) : Nat × Store :=
  match s.notes.find? (fun n => n.file_path == fp) with
  | some n =>
    (n.id,
     { s with notes := s.notes.map fun m =>
        if m.file_path == fp then
          { m with title := title, description := description, content := content }
        else m })
  | none =>
    (s.nextNoteId,
     { s with
        notes := s.notes ++ [⟨s.nextNoteId, fp, title, description, content⟩],
        nextNoteId := s.nextNoteId + 1 })

/-- Prepared statement `deleteNote`: delete from notes where file_path = :fp.
The foreign keys of notes_tags and chunks carry on delete cascade, and each
cascaded chunk deletion fires the delete_chunk_embeddings trigger, removing
the matching vec_chunks row. -/
def deleteNote (s : Store) (fp : String) : Store :=
  let deadChunk : Chunk → Bool := fun c =>
    s.notes.any fun n => n.file_path == fp && n.id == c.note_id
  { s with
    notes := s.notes.filter fun n => n.file_path != fp
    notesTags := s.notesTags.filter fun l =>
      !(s.notes.any fun n => n.file_path == fp && n.id == l.note_id)
    chunks := s.chunks.filter fun c => !(deadChunk c)
    vecChunks := s.vecChunks.filter fun v =>
      !(s.chunks.any fun c => deadChunk c && c.id == v.chunk_id) }

/-- Prepared statement `deleteChunksByNoteId`, together with the
delete_chunk_embeddings trigger firing once per deleted chunks row. -/
def deleteChunksByNoteId (s : Store) (nid : Nat) : Store :=
  { s with
    chunks := s.chunks.filter fun c => c.note_id != nid
    vecChunks := s.vecChunks.filter fun v =>
      !(s.chunks.any fun c => c.note_id == nid && c.id == v.chunk_id) }

/-- Prepared statement `deleteNotesTagsByNoteId`. -/
def deleteNotesTagsByNoteId (s : Store) (nid : Nat) : Store :=
  { s with notesTags := s.notesTags.filter fun l => l.note_id != nid }

/-- Prepared statement `upsertTag`: insert into tags (name) values (:name)
on conflict(name) do update set name = excluded.name returning id.  The
conflict arm rewrites the same name, so the table is unchanged when the
(case-sensitively matched) name already exists. -/
def upsertTag (s : Store) (name : String) : Nat × Store :=
  match s.tags.find? (fun t => t.name == name) with
  | some t => (t.id, s)
  | none =>
    (s.nextTagId,
     { s with tags := s.tags ++ [⟨s.nextTagId, name⟩], nextTagId := s.nextTagId + 1 })

/-- Prepared statement `insertNoteTag`: insert or ignore into notes_tags. -/
def insertNoteTag (s : Store) (nid tid : Nat) : Store :=
  if s.notesTags.any fun l => l.note_id == nid && l.tag_id == tid then s
  else { s with notesTags := s.notesTags ++ [⟨nid, tid⟩] }

/-- Prepared statement `insertChunk`, returning lastInsertRowid. -/
def insertChunk (s : Store) (nid idx : Nat) (content : String) : Nat × Store :=
  (s.nextChunkId,
   { s with
      chunks := s.chunks ++ [⟨s.nextChunkId, nid, idx, content⟩],
      nextChunkId := s.nextChunkId + 1 })

/-- Prepared statement `insertVecChunk`.  The vec0 virtual table enforces
the declared dimension float[768] and the chunk_id primary key; violating
either raises an SQLite error. -/
def insertVecChunk (s : Store) (cid : Nat) (emb : List Rat) : Except String Store :=
  if emb.length ≠ 768 then .error "vec_chunks dimension mismatch"
  else if s.vecChunks.any fun v => v.chunk_id == cid then
    .error "vec_chunks primary key violation"
  else .ok { s with vecChunks := s.vecChunks ++ [⟨cid, emb⟩] }

/-- The tags.forEach loop of db/ingest.ts: for each tag name, upsertTag then
insertNoteTag.  The typeof tagId guard of the source never fires because
upsertTag always returns an id, so it is not modelled. -/
def insertTags (nid : Nat) : Store → List String → Store
  | s, [] => s
  | s, t :: ts =>
    let r := upsertTag s t
    insertTags nid (insertNoteTag r.2 nid r.1) ts

/-- The chunks.forEach loop of db/ingest.ts: for the chunk at index i,
insertChunk then insertVecChunk with new Float32Array(embeddings[i]!).  When
i is out of range, embeddings[i] is undefined and new Float32Array(undefined)
is the empty vector, modelled by getD i [] - the subsequent vec0 insert then
fails the dimension check. -/
def insertChunksWithVecs (nid : Nat) (es : List (List Rat)) :
    Store → List String → Nat → Except String Store
  | s, [], _ => .ok s
  | s, c :: rest, i =>
    let r := insertChunk s nid i c
    match insertVecChunk r.2 r.1 (es.getD i []) with
    | .error e => .error e
    | .ok s2 => insertChunksWithVecs nid es s2 rest (i + 1)

/-- The change kinds reported by glob-diff. -/
inductive ChangeType
  | create
  | update
  | delete
deriving DecidableEq, Repr

/-- One entry of the glob-diff changes list. -/
structure Change where
  type : ChangeType
  filePath : String
deriving DecidableEq, Repr

/-- The front-matter fields actually extracted by db/ingest.ts from the
gray-matter data object, plus the body content. -/
structure ParsedFile where
  title : Option String
  description : Option String
  tags : List String
  content : String
deriving DecidableEq, Repr

/-- The external capabilities consumed by one ingestion run.
readParse bundles fs.readFile with gray-matter extraction and the typeof
based field extraction (an unreadable file or malformed front matter is an
exception, hence Except).  splitText is the RecursiveCharacterTextSplitter.
embed is the ollama nomic-embed-text endpoint, one batched call per input
list.  noteIdOk models whether the driver exposes a numeric id on the row
returned by the upsertNote statement for that file path (better-sqlite3
always does; the source still guards on typeof noteId). -/
structure Env where
  readParse : String → Except String ParsedFile
  splitText : String → List String
  embed : List String → Except String (List (List Rat))
  noteIdOk : String → Bool

/-- Processing of a single change inside the for loop of db/ingest.ts.  On
success it returns the new store together with the list of embedding batch
calls issued (each element is the chunk list passed to one ollama.embed
call). -/
def processChange (env : Env) (s : Store) (chg : Change) :
    Except String (Store × List (List String)) :=
  match chg.type with
  | .delete => .ok (deleteNote s chg.filePath, [])
  | _ =>
    match env.readParse chg.filePath with
    | .error e => .error e
    | .ok pf =>
      let chunks := env.splitText pf.content
      if chunks.isEmpty then .ok (s, [])
      else
        match env.embed chunks with
        | .error e => .error e
        | .ok es =>
          let r := upsertNote s chg.filePath pf.title pf.description pf.content
          if env.noteIdOk chg.filePath = false then .ok (r.2, [chunks])
          else
            let s1 := deleteChunksByNoteId r.2 r.1
            let s2 := deleteNotesTagsByNoteId s1 r.1
            let s3 := insertTags r.1 s2 pf.tags
            (insertChunksWithVecs r.1 es s3 chunks 0).map fun s4 => (s4, [chunks])

/-- The for loop over all changes, threading the store through the ambient
transaction and accumulating the embedding calls. -/
def processChanges (env : Env) : Store → List Change →
    Except String (Store × List (List String))
  | s, [] => .ok (s, [])
  | s, c :: rest =>
    match processChange env s c with
    | .error e => .error e
    | .ok r =>
      match processChanges env r.1 rest with
      | .error e => .error e
      | .ok r2 => .ok (r2.1, r.2 ++ r2.2)

/-- Outcome of one ingestion run: the committed store visible afterwards,
the contents of the snapshot file, whether the process reported success
(exit code 0), and the embedding calls issued. -/
structure RunResult where
  store : Store
  snapshotFile : String
  success : Bool
  embedCalls : List (List String)
deriving DecidableEq, Repr

/-- One ingestion run of db/ingest.ts.  With an empty change list the
process exits successfully before opening a transaction and without touching
the snapshot file.  Otherwise BEGIN opens a transaction, all changes are
processed, and either COMMIT publishes the processed store and the snapshot
file is rewritten with the new snapshot, or on any exception ROLLBACK
discards every write of the run, the snapshot file is left alone, and the
process exits with code 1. -/
def runIngest (env : Env) (store : Store) (snapshotFile : String)
    (changes : List Change) (newSnapshot : String) : RunResult :=
  if changes.isEmpty then ⟨store, snapshotFile, true, []⟩
  else
    match processChanges env store changes with
    | .ok r => ⟨r.1, newSnapshot, true, r.2⟩
    | .error _ => ⟨store, snapshotFile, false, []⟩

/-- Outcome of the query_notes_db tool: the statement was rejected by the
gate before execution, or execution raised an SQLite error reported as a
structured error result, or rows came back. -/
inductive QueryOutcome
  | rejected
  | execError (msg : String)
  | rows (rs : List (List String))
deriving DecidableEq, Repr

/-- Lowercasing of an ASCII letter: the fragment of the JavaScript
toLowerCase method relevant to matching the lowercase gate keywords. -/
def asciiToLower (c : Char) : Char :=
  if 'A' ≤ c ∧ c ≤ 'Z' then Char.ofNat (c.toNat + 32) else c

/-- JavaScript String.prototype.trim on the character list: strip leading
and trailing whitespace. -/
def jsTrim (s : String) : List Char :=
  ((s.data.dropWhile Char.isWhitespace).reverse.dropWhile Char.isWhitespace).reverse

/-- Character-list version of String.prototype.startsWith: does the second
list start with the first. -/
def charsStart : List Char → List Char → Bool
  | [], _ => true
  | _ :: _, [] => false
  | p :: ps, c :: cs => p == c && charsStart ps cs

/-- The gate of query_notes_db (mcp/server.ts): query.trim().toLowerCase()
must start with select or with. -/
def isAllowedQuery (q : String) : Bool :=
  let trimmedQuery := (jsTrim q).map asciiToLower
  charsStart "select".data trimmedQuery || charsStart "with".data trimmedQuery

/-- The query_notes_db tool.  runSql stands for db.prepare(query).all() on
the connection opened with pragma query_only = 1: under that pragma SQLite
refuses every statement that would modify the database, so execution reads
the store and either raises (Except.error) or returns rows; it never writes.
The tool returns the (unchanged) ingestion store next to the outcome. -/
def queryNotesDb (store : Store)
    (runSql : Store → String → Except String (List (List String)))
    (q : String) : Store × QueryOutcome :=
  if isAllowedQuery q then
    match runSql store q with
    | .error e => (store, .execError e)
    | .ok rs => (store, .rows rs)
  else (store, .rejected)

/-- One result row of the search_notes_db tool.  The SQL left joins, so the
joined columns are nullable. -/
structure SearchRow where
  file_path : Option String
  content : Option String
  chunk_index : Option Nat
  similarity : Rat
deriving DecidableEq, Repr

/-- The matched_chunks CTE of search_notes_db: every vec_chunks row paired
with its distance to the query embedding, ordered by distance, limit k. -/
def matchedChunks (store : Store) (dist : List Rat → List Rat → Rat)
    (queryEmbedding : List Rat) (limit : Nat) : List (Nat × Rat) :=
  (List.insertionSort (fun a b : Nat × Rat => a.2 ≤ b.2)
    (store.vecChunks.map fun v => (v.chunk_id, dist queryEmbedding v.chunk_embeddings))).take
    limit

/-- The search_notes_db tool (mcp/server.ts): embed the query (the embedding
is the queryEmbedding argument; dist is the vec0 distance function), take
the limit nearest chunk vectors, left join chunks and notes, order by
distance, and report similarity_score = 1 - distance. -/
def searchNotesDb (store : Store) (dist : List Rat → List Rat → Rat)
    (queryEmbedding : List Rat) (limit : Nat) : List SearchRow :=
  (matchedChunks store dist queryEmbedding limit).map fun m =>
    let chunk := store.chunks.find? fun c => c.id == m.1
    let note := chunk.bind fun c => store.notes.find? fun n => n.id == c.note_id
    { file_path := note.map fun n => n.file_path
      content := chunk.map fun c => c.content
      chunk_index := chunk.map fun c => c.chunk_index
      similarity := 1 - m.2 }

/-- Structural well-formedness of a store, maintained by SQLite itself:
autoincrement ids sit below their watermark and primary keys are
duplicate-free; tag names are unique (unique constraint on tags.name). -/
structure StoreWF (s : Store) : Prop where
  chunkIdLt : ∀ c ∈ s.chunks, c.id < s.nextChunkId
  chunkIdNodup : (s.chunks.map fun c => c.id).Nodup
  vecIdLt : ∀ v ∈ s.vecChunks, v.chunk_id < s.nextChunkId
  vecIdNodup : (s.vecChunks.map fun v => v.chunk_id).Nodup
  tagNameNodup : (s.tags.map fun t => t.name).Nodup

/-- The vector-embedding invariant of the spec: a vec_chunks row exists
exactly when its chunks row exists. -/
def vecInv (s : Store) : Prop :=
  ∀ cid : Nat, (∃ v ∈ s.vecChunks, v.chunk_id = cid) ↔ ∃ c ∈ s.chunks, c.id = cid

/-- The chunk rows freshly inserted for note nid from the chunk texts cs,
starting at list index i and rowid base. -/
def mkChunks (nid : Nat) : List String → Nat → Nat → List Chunk
  | [], _, _ => []
  | c :: rest, i, base => ⟨base, nid, i, c⟩ :: mkChunks nid rest (i + 1) (base + 1)

/-- The vec_chunks rows freshly inserted alongside mkChunks. -/
def mkVecs (es : List (List Rat)) : List String → Nat → Nat → List VecChunk
  | [], _, _ => []
  | _ :: rest, i, base => ⟨base, es.getD i []⟩ :: mkVecs es rest (i + 1) (base + 1)

/-- The observable content of a chunk row, without its autoincrement id. -/
def chunkData (c : Chunk) : Nat × Nat × String := (c.note_id, c.chunk_index, c.content)

/-- The replaceChunks store primitive named by the spec, assembled from the
source statements: delete all chunks of the document (the trigger drops
their vectors), then insert every chunk with its embedding pairwise. -/
def replaceChunks (s : Store) (nid : Nat) (cs : List String)
    (es : List (List Rat)) : Except String Store :=
  insertChunksWithVecs nid es (deleteChunksByNoteId s nid) cs 0

/-- The replaceTags store primitive named by the spec, assembled from the
source statements: delete all tag links of the document, then get-or-create
each tag and insert a link. -/
def replaceTags (s : Store) (nid : Nat) (tagNames : List String) : Store :=
  insertTags nid (deleteNotesTagsByNoteId s nid) tagNames

attribute [ext] Store


/-- upsertTag touches only the tags and nextTagId fields. -/
theorem upsertTag_fields (s : Store) (t : String) :
    (upsertTag s t).2.notes = s.notes ∧
    (upsertTag s t).2.notesTags = s.notesTags ∧
    (upsertTag s t).2.chunks = s.chunks ∧
    (upsertTag s t).2.vecChunks = s.vecChunks ∧
    (upsertTag s t).2.nextNoteId = s.nextNoteId ∧
    (upsertTag s t).2.nextChunkId = s.nextChunkId := by
  simp only [upsertTag]
  split <;> simp

/-- insertNoteTag touches only the notesTags field. -/
theorem insertNoteTag_fields (s : Store) (nid tid : Nat) :
    (insertNoteTag s nid tid).notes = s.notes ∧
    (insertNoteTag s nid tid).tags = s.tags ∧
    (insertNoteTag s nid tid).chunks = s.chunks ∧
    (insertNoteTag s nid tid).vecChunks = s.vecChunks ∧
    (insertNoteTag s nid tid).nextNoteId = s.nextNoteId ∧
    (insertNoteTag s nid tid).nextTagId = s.nextTagId ∧
    (insertNoteTag s nid tid).nextChunkId = s.nextChunkId := by
  simp only [insertNoteTag]
  split <;> simp

/-- insertTags touches only the tags, notesTags and nextTagId fields. -/
theorem insertTags_fields (nid : Nat) : ∀ (ts : List String) (s : Store),
    (insertTags nid s ts).notes = s.notes ∧
    (insertTags nid s ts).chunks = s.chunks ∧
    (insertTags nid s ts).vecChunks = s.vecChunks ∧
    (insertTags nid s ts).nextNoteId = s.nextNoteId ∧
    (insertTags nid s ts).nextChunkId = s.nextChunkId
  | [], s => by simp [insertTags]
  | t :: ts, s => by
    have ih := insertTags_fields nid ts (insertNoteTag (upsertTag s t).2 nid (upsertTag s t).1)
    have h1 := upsertTag_fields s t
    have h2 := insertNoteTag_fields (upsertTag s t).2 nid (upsertTag s t).1
    simp only [insertTags]
    rw [ih.1, ih.2.1, ih.2.2.1, ih.2.2.2.1, ih.2.2.2.2,
        h2.1, h2.2.2.1, h2.2.2.2.1, h2.2.2.2.2.1, h2.2.2.2.2.2.2,
        h1.1, h1.2.2.1, h1.2.2.2.1, h1.2.2.2.2.1, h1.2.2.2.2.2]
    simp

/-- insertTags only ever appends to the tags table. -/
theorem insertTags_tags_append (nid : Nat) : ∀ (ts : List String) (s : Store),
    ∃ l, (insertTags nid s ts).tags = s.tags ++ l
  | [], s => ⟨[], by simp [insertTags]⟩
  | t :: ts, s => by
    obtain ⟨l, hl⟩ :=
      insertTags_tags_append nid ts (insertNoteTag (upsertTag s t).2 nid (upsertTag s t).1)
    have h2 := (insertNoteTag_fields (upsertTag s t).2 nid (upsertTag s t).1).2.1
    simp only [insertTags]
    rw [hl, h2]
    rcases h : s.tags.find? (fun tg => tg.name == t) with _ | tg
    · exact ⟨⟨s.nextTagId, t⟩ :: l, by simp [upsertTag, h]⟩
    · exact ⟨l, by simp [upsertTag, h]⟩

/-- insertTags only ever appends links of the processed note to notes_tags. -/
theorem insertTags_links_append (nid : Nat) : ∀ (ts : List String) (s : Store),
    ∃ L, (insertTags nid s ts).notesTags = s.notesTags ++ L ∧ ∀ x ∈ L, x.note_id = nid
  | [], s => ⟨[], by simp [insertTags]⟩
  | t :: ts, s => by
    obtain ⟨L, hL, hmem⟩ :=
      insertTags_links_append nid ts (insertNoteTag (upsertTag s t).2 nid (upsertTag s t).1)
    have h1 := (upsertTag_fields s t).2.1
    simp only [insertTags]
    rw [hL]
    simp only [insertNoteTag]
    split
    · rw [h1]
      exact ⟨L, rfl, hmem⟩
    · rw [h1]
      refine ⟨⟨nid, (upsertTag s t).1⟩ :: L, by simp, ?_⟩
      intro x hx
      rcases List.mem_cons.mp hx with h | h
      · subst h; rfl
      · exact hmem x h

/-- The ids of the freshly inserted chunk rows are consecutive rowids. -/
theorem mkChunks_map_id (nid : Nat) : ∀ (cs : List String) (i base : Nat),
    (mkChunks nid cs i base).map (fun c => c.id) = List.range' base cs.length
  | [], _, _ => by simp [mkChunks]
  | c :: rest, i, base => by
    simp [mkChunks, List.range'_succ, mkChunks_map_id nid rest (i + 1) (base + 1)]

/-- The ids of the freshly inserted vec rows are consecutive rowids. -/
theorem mkVecs_map_id (es : List (List Rat)) : ∀ (cs : List String) (i base : Nat),
    (mkVecs es cs i base).map (fun v => v.chunk_id) = List.range' base cs.length
  | [], _, _ => by simp [mkVecs]
  | c :: rest, i, base => by
    simp [mkVecs, List.range'_succ, mkVecs_map_id es rest (i + 1) (base + 1)]

/-- Every freshly inserted chunk row belongs to the processed note and its
observable data does not depend on the rowid base. -/
theorem mkChunks_mem (nid : Nat) : ∀ (cs : List String) (i base : Nat),
    ∀ c ∈ mkChunks nid cs i base, c.note_id = nid ∧ base ≤ c.id ∧ c.id < base + cs.length
  | [], _, _ => by simp [mkChunks]
  | c :: rest, i, base => by
    intro x hx
    rcases List.mem_cons.mp hx with h | h
    · subst h; simp
    · obtain ⟨h1, h2, h3⟩ := mkChunks_mem nid rest (i + 1) (base + 1) x h
      refine ⟨h1, by omega, ?_⟩
      simp only [List.length_cons]
      omega

/-- The observable chunk data produced by mkChunks is independent of the
rowid base. -/
theorem mkChunks_data (nid : Nat) : ∀ (cs : List String) (i b₁ b₂ : Nat),
    (mkChunks nid cs i b₁).map chunkData = (mkChunks nid cs i b₂).map chunkData
  | [], _, _, _ => rfl
  | c :: rest, i, b₁, b₂ => by
    simp [mkChunks, chunkData, mkChunks_data nid rest (i + 1) (b₁ + 1) (b₂ + 1)]


/-- Shape of a successful chunk+vector insertion loop: the chunk and vector
tables grow by exactly the paired fresh rows, all other fields are
untouched. -/
theorem insertChunksWithVecs_ok (nid : Nat) (es : List (List Rat)) :
    ∀ (cs : List String) (i : Nat) (s s' : Store),
    insertChunksWithVecs nid es s cs i = .ok s' →
    s'.notes = s.notes ∧ s'.tags = s.tags ∧ s'.notesTags = s.notesTags ∧
    s'.nextNoteId = s.nextNoteId ∧ s'.nextTagId = s.nextTagId ∧
    s'.chunks = s.chunks ++ mkChunks nid cs i s.nextChunkId ∧
    s'.vecChunks = s.vecChunks ++ mkVecs es cs i s.nextChunkId ∧
    s'.nextChunkId = s.nextChunkId + cs.length
  | [], i, s, s', h => by
    simp [insertChunksWithVecs] at h
    subst h
    simp [mkChunks, mkVecs]
  | c :: rest, i, s, s', h => by
    simp only [insertChunksWithVecs, insertChunk, insertVecChunk] at h
    split at h
    · simp at h
    · rename_i s2 heq
      split at heq
      · simp at heq
      · split at heq
        · simp at heq
        · rw [Except.ok.injEq] at heq
          subst heq
          have ih := insertChunksWithVecs_ok nid es rest (i + 1) _ s' h
          simp only at ih
          obtain ⟨e1, e2, e3, e4, e5, e6, e7, e8⟩ := ih
          refine ⟨e1, e2, e3, e4, e5, ?_, ?_, ?_⟩
          · rw [e6]; simp [mkChunks]
          · rw [e7]; simp [mkVecs]
          · rw [e8]; simp only [List.length_cons]; omega

/-- A successful chunk+vector insertion loop used one 768-dimensional
embedding per chunk. -/
theorem insertChunksWithVecs_dims (nid : Nat) (es : List (List Rat)) :
    ∀ (cs : List String) (i : Nat) (s s' : Store),
    insertChunksWithVecs nid es s cs i = .ok s' →
    ∀ j, j < cs.length → (es.getD (i + j) []).length = 768
  | [], i, s, s', h => by simp
  | c :: rest, i, s, s', h => by
    simp only [insertChunksWithVecs, insertChunk, insertVecChunk] at h
    split at h
    · simp at h
    · rename_i s2 heq
      split at heq
      · simp at heq
      · split at heq
        · simp at heq
        · rw [Except.ok.injEq] at heq
          subst heq
          rename_i hdim _
          have ih := insertChunksWithVecs_dims nid es rest (i + 1) _ s' h
          intro j hj
          cases j with
          | zero => simpa using not_ne_iff.mp hdim
          | succ k =>
            have := ih k (by simpa [Nat.lt_succ_iff, Nat.succ_le_iff] using hj)
            simpa [Nat.add_assoc, Nat.add_comm, Nat.add_left_comm] using this

/-- When every embedding in range is 768-dimensional and the vec rowids sit
below the chunk watermark, the chunk+vector insertion loop succeeds. -/
theorem insertChunksWithVecs_isOk (nid : Nat) (es : List (List Rat)) :
    ∀ (cs : List String) (i : Nat) (s : Store),
    (∀ j, j < cs.length → (es.getD (i + j) []).length = 768) →
    (∀ v ∈ s.vecChunks, v.chunk_id < s.nextChunkId) →
    ∃ s', insertChunksWithVecs nid es s cs i = .ok s'
  | [], i, s, _, _ => ⟨s, rfl⟩
  | c :: rest, i, s, hdim, hlt => by
    have h0 : (es.getD i []).length = 768 := by simpa using hdim 0 (by simp)
    have hpk : (s.vecChunks.any fun v => v.chunk_id == s.nextChunkId) = false := by
      rw [List.any_eq_false]
      intro v hv
      simpa using Nat.ne_of_lt (hlt v hv)
    have hlt2 : ∀ v ∈ s.vecChunks ++ [⟨s.nextChunkId, es.getD i []⟩],
        v.chunk_id < s.nextChunkId + 1 := by
      intro v hv
      rcases List.mem_append.mp hv with h | h
      · exact Nat.lt_succ_of_lt (hlt v h)
      · simp at h
        subst h
        exact Nat.lt_succ_self _
    have hdim2 : ∀ j, j < rest.length → (es.getD (i + 1 + j) []).length = 768 := by
      intro j hj
      have := hdim (j + 1) (by simp [List.length_cons]; omega)
      simpa [Nat.add_assoc, Nat.add_comm, Nat.add_left_comm] using this
    obtain ⟨s', hs'⟩ := insertChunksWithVecs_isOk nid es rest (i + 1)
      { s with
        chunks := s.chunks ++ [⟨s.nextChunkId, nid, i, c⟩],
        vecChunks := s.vecChunks ++ [⟨s.nextChunkId, es.getD i []⟩],
        nextChunkId := s.nextChunkId + 1 } hdim2 hlt2
    refine ⟨s', ?_⟩
    simp only [insertChunksWithVecs, insertChunk, insertVecChunk, h0, hpk]
    simpa using hs'

/-- upsertNote preserves store well-formedness. -/
theorem upsertNote_WF {s : Store} (h : StoreWF s) (fp : String)
    (title description : Option String) (content : String) :
    StoreWF (upsertNote s fp title description content).2 := by
  simp only [upsertNote]
  split <;> exact ⟨h.chunkIdLt, h.chunkIdNodup, h.vecIdLt, h.vecIdNodup, h.tagNameNodup⟩

/-- deleteNote preserves store well-formedness. -/
theorem deleteNote_WF {s : Store} (h : StoreWF s) (fp : String) :
    StoreWF (deleteNote s fp) := by
  refine ⟨?_, ?_, ?_, ?_, ?_⟩
  · intro c hc
    exact h.chunkIdLt c (List.mem_filter.mp hc).1
  · exact ((List.filter_sublist _).map fun c : Chunk => c.id).nodup h.chunkIdNodup
  · intro v hv
    exact h.vecIdLt v (List.mem_filter.mp hv).1
  · exact ((List.filter_sublist _).map fun v : VecChunk => v.chunk_id).nodup h.vecIdNodup
  · exact h.tagNameNodup

/-- deleteChunksByNoteId preserves store well-formedness. -/
theorem deleteChunksByNoteId_WF {s : Store} (h : StoreWF s) (nid : Nat) :
    StoreWF (deleteChunksByNoteId s nid) := by
  refine ⟨?_, ?_, ?_, ?_, ?_⟩
  · intro c hc
    exact h.chunkIdLt c (List.mem_filter.mp hc).1
  · exact ((List.filter_sublist _).map fun c : Chunk => c.id).nodup h.chunkIdNodup
  · intro v hv
    exact h.vecIdLt v (List.mem_filter.mp hv).1
  · exact ((List.filter_sublist _).map fun v : VecChunk => v.chunk_id).nodup h.vecIdNodup
  · exact h.tagNameNodup

/-- deleteNotesTagsByNoteId preserves store well-formedness. -/
theorem deleteNotesTagsByNoteId_WF {s : Store} (h : StoreWF s) (nid : Nat) :
    StoreWF (deleteNotesTagsByNoteId s nid) :=
  ⟨h.chunkIdLt, h.chunkIdNodup, h.vecIdLt, h.vecIdNodup, h.tagNameNodup⟩

/-- upsertTag preserves store well-formedness: a tag row is appended only
when no row with that exact name exists. -/
theorem upsertTag_WF {s : Store} (h : StoreWF s) (name : String) :
    StoreWF (upsertTag s name).2 := by
  simp only [upsertTag]
  split
  · exact h
  · rename_i hnone
    refine ⟨h.chunkIdLt, h.chunkIdNodup, h.vecIdLt, h.vecIdNodup, ?_⟩
    simp only [List.map_append, List.map_cons, List.map_nil]
    rw [List.nodup_append]
    refine ⟨h.tagNameNodup, List.nodup_singleton _, ?_⟩
    intro x hx hx'
    simp only [List.mem_singleton] at hx'
    subst hx'
    obtain ⟨t, ht, rfl⟩ := List.mem_map.mp hx
    exact absurd (by simp : (fun tg => tg.name == t.name) t = true)
      (List.find?_eq_none.mp hnone t ht)

/-- insertNoteTag preserves store well-formedness. -/
theorem insertNoteTag_WF {s : Store} (h : StoreWF s) (nid tid : Nat) :
    StoreWF (insertNoteTag s nid tid) := by
  simp only [insertNoteTag]
  split <;> exact ⟨h.chunkIdLt, h.chunkIdNodup, h.vecIdLt, h.vecIdNodup, h.tagNameNodup⟩

/-- insertTags preserves store well-formedness. -/
theorem insertTags_WF (nid : Nat) : ∀ (ts : List String) {s : Store},
    StoreWF s → StoreWF (insertTags nid s ts)
  | [], _, h => h
  | t :: ts, s, h =>
    insertTags_WF nid ts (insertNoteTag_WF (upsertTag_WF h t) nid (upsertTag s t).1)

/-- insertChunksWithVecs preserves store well-formedness. -/
theorem insertChunksWithVecs_WF {nid : Nat} {es : List (List Rat)}
    {cs : List String} {i : Nat} {s s' : Store} (h : StoreWF s)
    (hok : insertChunksWithVecs nid es s cs i = .ok s') : StoreWF s' := by
  obtain ⟨e1, e2, e3, e4, e5, e6, e7, e8⟩ := insertChunksWithVecs_ok nid es cs i s s' hok
  refine ⟨?_, ?_, ?_, ?_, by rw [e2]; exact h.tagNameNodup⟩
  · intro c hc
    rw [e6] at hc
    rw [e8]
    rcases List.mem_append.mp hc with hm | hm
    · exact Nat.lt_of_lt_of_le (h.chunkIdLt c hm) (Nat.le_add_right _ _)
    · exact (mkChunks_mem nid cs i s.nextChunkId c hm).2.2
  · rw [e6, List.map_append, List.nodup_append, mkChunks_map_id]
    refine ⟨h.chunkIdNodup, List.nodup_range' _ _, ?_⟩
    intro x hx hx'
    obtain ⟨c, hc, rfl⟩ := List.mem_map.mp hx
    obtain ⟨j, hj, hx'⟩ := List.mem_range'.mp hx'
    have := h.chunkIdLt c hc
    omega
  · intro v hv
    rw [e7] at hv
    rw [e8]
    rcases List.mem_append.mp hv with hm | hm
    · exact Nat.lt_of_lt_of_le (h.vecIdLt v hm) (Nat.le_add_right _ _)
    · have : v.chunk_id ∈ (mkVecs es cs i s.nextChunkId).map fun v => v.chunk_id :=
        List.mem_map.mpr ⟨v, hm, rfl⟩
      rw [mkVecs_map_id] at this
      obtain ⟨j, hj, hx'⟩ := List.mem_range'.mp this
      omega
  · rw [e7, List.map_append, List.nodup_append, mkVecs_map_id]
    refine ⟨h.vecIdNodup, List.nodup_range' _ _, ?_⟩
    intro x hx hx'
    obtain ⟨v, hv, rfl⟩ := List.mem_map.mp hx
    obtain ⟨j, hj, hx'⟩ := List.mem_range'.mp hx'
    have := h.vecIdLt v hv
    omega


/-- Inversion for a successful Except.map. -/
theorem exceptMap_ok {ε α β : Type} {f : α → β} {x : Except ε α} {y : β}
    (h : Except.map f x = .ok y) : ∃ a, x = .ok a ∧ f a = y := by
  cases x with
  | error e => simp [Except.map] at h
  | ok a =>
    simp only [Except.map, Except.ok.injEq] at h
    exact ⟨a, rfl, h⟩

/-- Processing one change preserves store well-formedness. -/
theorem processChange_WF {env : Env} {s : Store} {chg : Change} {s' : Store}
    {calls : List (List String)} (h : StoreWF s)
    (hok : processChange env s chg = .ok (s', calls)) : StoreWF s' := by
  rcases chg with ⟨ty, fp⟩
  cases ty <;> simp only [processChange] at hok
  case delete =>
    rw [Except.ok.injEq, Prod.mk.injEq] at hok
    rw [← hok.1]
    exact deleteNote_WF h fp
  all_goals
    rcases hrp : env.readParse fp with e | pf <;> simp only [hrp] at hok
    · simp at hok
    · split at hok
      · rw [Except.ok.injEq, Prod.mk.injEq] at hok
        rw [← hok.1]
        exact h
      · rcases hem : env.embed (env.splitText pf.content) with e | es <;>
          simp only [hem] at hok
        · simp at hok
        · split at hok
          · rw [Except.ok.injEq, Prod.mk.injEq] at hok
            rw [← hok.1]
            exact upsertNote_WF h fp pf.title pf.description pf.content
          · obtain ⟨s4, hs4, heq⟩ := exceptMap_ok hok
            rw [Prod.mk.injEq] at heq
            rw [← heq.1]
            exact insertChunksWithVecs_WF
              (insertTags_WF _ pf.tags
                (deleteNotesTagsByNoteId_WF
                  (deleteChunksByNoteId_WF
                    (upsertNote_WF h fp pf.title pf.description pf.content) _) _))
              hs4

/-- A generic cascade lemma: filtering chunks by a predicate while the
trigger removes exactly the vectors of the filtered-out chunks preserves
the chunk-vector correspondence, as long as chunk ids are unique. -/
theorem vecInv_filter {chunks : List Chunk} {vecs : List VecChunk}
    (dead : Chunk → Bool)
    (hinv : ∀ cid : Nat, (∃ v ∈ vecs, v.chunk_id = cid) ↔ ∃ c ∈ chunks, c.id = cid)
    (hnodup : (chunks.map fun c => c.id).Nodup) :
    ∀ cid : Nat,
      (∃ v ∈ vecs.filter fun v => !(chunks.any fun c => dead c && c.id == v.chunk_id),
        v.chunk_id = cid) ↔
      ∃ c ∈ chunks.filter fun c => !(dead c), c.id = cid := by
  intro cid
  constructor
  · rintro ⟨v, hv, rfl⟩
    obtain ⟨hv1, hv2⟩ := List.mem_filter.mp hv
    obtain ⟨c, hc, hcid⟩ := (hinv v.chunk_id).mp ⟨v, hv1, rfl⟩
    refine ⟨c, List.mem_filter.mpr ⟨hc, ?_⟩, hcid⟩
    simp only [Bool.not_eq_true', List.any_eq_false] at hv2
    have := hv2 c hc
    simp only [Bool.and_eq_true, beq_iff_eq, not_and] at this
    by_cases hd : dead c = true
    · exact absurd hcid (this hd)
    · simpa using hd
  · rintro ⟨c, hc, rfl⟩
    obtain ⟨hc1, hc2⟩ := List.mem_filter.mp hc
    obtain ⟨v, hv, hvid⟩ := (hinv c.id).mpr ⟨c, hc1, rfl⟩
    refine ⟨v, List.mem_filter.mpr ⟨hv, ?_⟩, hvid⟩
    simp only [Bool.not_eq_true', List.any_eq_false]
    intro c' hc'
    simp only [Bool.and_eq_true, beq_iff_eq, not_and]
    intro hdead hid
    rw [hvid] at hid
    have : c' = c := List.inj_on_of_nodup_map hnodup hc' hc1 hid
    subst this
    simp only [Bool.not_eq_true'] at hc2
    rw [hc2] at hdead
    cases hdead

/-- deleteNote preserves the chunk-vector correspondence. -/
theorem deleteNote_vecInv {s : Store} (hwf : StoreWF s) (hinv : vecInv s)
    (fp : String) : vecInv (deleteNote s fp) := by
  intro cid
  exact vecInv_filter _ hinv hwf.chunkIdNodup cid

/-- deleteChunksByNoteId preserves the chunk-vector correspondence. -/
theorem deleteChunksByNoteId_vecInv {s : Store} (hwf : StoreWF s)
    (hinv : vecInv s) (nid : Nat) : vecInv (deleteChunksByNoteId s nid) := by
  intro cid
  exact vecInv_filter (fun c => c.note_id == nid) hinv hwf.chunkIdNodup cid

/-- insertChunksWithVecs preserves the chunk-vector correspondence: each
chunk insert is immediately paired with its vector insert. -/
theorem insertChunksWithVecs_vecInv {nid : Nat} {es : List (List Rat)}
    {cs : List String} {i : Nat} {s s' : Store} (hinv : vecInv s)
    (hok : insertChunksWithVecs nid es s cs i = .ok s') : vecInv s' := by
  obtain ⟨e1, e2, e3, e4, e5, e6, e7, e8⟩ := insertChunksWithVecs_ok nid es cs i s s' hok
  intro cid
  rw [e6, e7]
  constructor
  · rintro ⟨v, hv, rfl⟩
    rcases List.mem_append.mp hv with hm | hm
    · obtain ⟨c, hc, hcid⟩ := (hinv v.chunk_id).mp ⟨v, hm, rfl⟩
      exact ⟨c, List.mem_append.mpr (Or.inl hc), hcid⟩
    · have : v.chunk_id ∈ (mkVecs es cs i s.nextChunkId).map fun v => v.chunk_id :=
        List.mem_map.mpr ⟨v, hm, rfl⟩
      rw [mkVecs_map_id, ← mkChunks_map_id nid cs i s.nextChunkId] at this
      obtain ⟨c, hc, hcid⟩ := List.mem_map.mp this
      exact ⟨c, List.mem_append.mpr (Or.inr hc), hcid⟩
  · rintro ⟨c, hc, rfl⟩
    rcases List.mem_append.mp hc with hm | hm
    · obtain ⟨v, hv, hvid⟩ := (hinv c.id).mpr ⟨c, hm, rfl⟩
      exact ⟨v, List.mem_append.mpr (Or.inl hv), hvid⟩
    · have : c.id ∈ (mkChunks nid cs i s.nextChunkId).map fun c => c.id :=
        List.mem_map.mpr ⟨c, hm, rfl⟩
      rw [mkChunks_map_id, ← mkVecs_map_id es cs i s.nextChunkId] at this
      obtain ⟨v, hv, hvid⟩ := List.mem_map.mp this
      exact ⟨v, List.mem_append.mpr (Or.inr hv), hvid⟩

/-- Processing one change preserves the chunk-vector correspondence. -/
theorem processChange_vecInv {env : Env} {s : Store} {chg : Change} {s' : Store}
    {calls : List (List String)} (hwf : StoreWF s) (hinv : vecInv s)
    (hok : processChange env s chg = .ok (s', calls)) : vecInv s' := by
  rcases chg with ⟨ty, fp⟩
  cases ty <;> simp only [processChange] at hok
  case delete =>
    rw [Except.ok.injEq, Prod.mk.injEq] at hok
    rw [← hok.1]
    exact deleteNote_vecInv hwf hinv fp
  all_goals
    rcases hrp : env.readParse fp with e | pf <;> simp only [hrp] at hok
    · simp at hok
    · split at hok
      · rw [Except.ok.injEq, Prod.mk.injEq] at hok
        rw [← hok.1]
        exact hinv
      · rcases hem : env.embed (env.splitText pf.content) with e | es <;>
          simp only [hem] at hok
        · simp at hok
        · split at hok
          · rw [Except.ok.injEq, Prod.mk.injEq] at hok
            rw [← hok.1]
            intro cid
            simp only [upsertNote]
            split <;> exact hinv cid
          · obtain ⟨s4, hs4, heq⟩ := exceptMap_ok hok
            rw [Prod.mk.injEq] at heq
            rw [← heq.1]
            have hup : vecInv (upsertNote s fp pf.title pf.description pf.content).2 := by
              intro cid
              simp only [upsertNote]
              split <;> exact hinv cid
            have hupWF := upsertNote_WF hwf fp pf.title pf.description pf.content
            have hdel := deleteChunksByNoteId_vecInv hupWF hup
              (upsertNote s fp pf.title pf.description pf.content).1
            have htags : vecInv (insertTags
                (upsertNote s fp pf.title pf.description pf.content).1
                (deleteNotesTagsByNoteId
                  (deleteChunksByNoteId
                    (upsertNote s fp pf.title pf.description pf.content).2
                    (upsertNote s fp pf.title pf.description pf.content).1)
                  (upsertNote s fp pf.title pf.description pf.content).1)
                pf.tags) := by
              intro cid
              have hf := insertTags_fields
                (upsertNote s fp pf.title pf.description pf.content).1 pf.tags
                (deleteNotesTagsByNoteId
                  (deleteChunksByNoteId
                    (upsertNote s fp pf.title pf.description pf.content).2
                    (upsertNote s fp pf.title pf.description pf.content).1)
                  (upsertNote s fp pf.title pf.description pf.content).1)
              rw [hf.2.1, hf.2.2.1]
              exact hdel cid
            exact insertChunksWithVecs_vecInv htags hs4

/-- Processing a batch of changes preserves well-formedness and the
chunk-vector correspondence. -/
theorem processChanges_WF_vecInv {env : Env} :
    ∀ {changes : List Change} {s s' : Store} {calls : List (List String)},
    StoreWF s → vecInv s → processChanges env s changes = .ok (s', calls) →
    StoreWF s' ∧ vecInv s'
  | [], s, s', calls, hwf, hinv, hok => by
    simp only [processChanges, Except.ok.injEq, Prod.mk.injEq] at hok
    rw [← hok.1]
    exact ⟨hwf, hinv⟩
  | c :: rest, s, s', calls, hwf, hinv, hok => by
    simp only [processChanges] at hok
    rcases h1 : processChange env s c with e | r <;> simp only [h1] at hok
    · simp at hok
    · rcases h2 : processChanges env r.1 rest with e | r2 <;> simp only [h2] at hok
      · simp at hok
      · rw [Except.ok.injEq, Prod.mk.injEq] at hok
        have hstep := processChange_WF hwf (by rw [h1])
        have hstepInv := processChange_vecInv hwf hinv (by rw [h1])
        have := processChanges_WF_vecInv hstep hstepInv h2
        rw [← hok.1]
        exact this

/-- If a prefix of the batch processes fine and the next change raises, the
whole batch raises. -/
theorem processChanges_error_of_prefix {env : Env} :
    ∀ (pre : List Change) {s s1 : Store} {c1 : List (List String)}
      {bad : Change} {post : List Change} {e : String},
    processChanges env s pre = .ok (s1, c1) →
    processChange env s1 bad = .error e →
    processChanges env s (pre ++ bad :: post) = .error e
  | [], s, s1, c1, bad, post, e, hok, hbad => by
    simp only [processChanges, Except.ok.injEq, Prod.mk.injEq] at hok
    simp only [List.nil_append, processChanges, hok.1, hbad]
  | x :: pre, s, s1, c1, bad, post, e, hok, hbad => by
    simp only [processChanges] at hok
    rcases h1 : processChange env s x with e2 | r <;> simp only [h1] at hok
    · simp at hok
    · rcases h2 : processChanges env r.1 pre with e2 | r2 <;> simp only [h2] at hok
      · simp at hok
      · rw [Except.ok.injEq, Prod.mk.injEq] at hok
        obtain ⟨hs, hc⟩ := hok
        subst hs
        have hrec : processChanges env r.1 (pre ++ bad :: post) = .error e :=
          processChanges_error_of_prefix pre (by rw [h2]) hbad
        simp only [List.cons_append, processChanges, h1, List.append_eq, hrec]

/-- C1: if any exception is raised at any point while processing the batch -
even after earlier changes already wrote documents, chunks, vectors or tag
links - the whole transaction is rolled back: the visible store afterwards
is exactly the store from before the run, the run reports failure, and the
snapshot file is left unchanged (it is written only after a successful
commit). -/
theorem claim_C1_rollback (env : Env) (store : Store) (snapshotFile : String)
    (pre : List Change) (bad : Change) (post : List Change)
    (newSnapshot : String) (sMid : Store) (callsMid : List (List String))
    (e : String)
    (hpre : processChanges env store pre = .ok (sMid, callsMid))
    (hbad : processChange env sMid bad = .error e) :
    runIngest env store snapshotFile (pre ++ bad :: post) newSnapshot =
      ⟨store, snapshotFile, false, []⟩ := by
  have herr : processChanges env store (pre ++ bad :: post) = .error e :=
    processChanges_error_of_prefix pre hpre hbad
  simp only [runIngest, herr]
  rw [if_neg (by simp)]

/-- A concrete environment: a.md parses to body hi with no front matter,
b.md is unreadable, embeddings are 768-dimensional zero vectors. -/
def envA : Env where
  readParse := fun fp =>
    if fp = "a.md" then .ok ⟨none, none, [], "hi"⟩
    else if fp = "e.md" then .ok ⟨none, none, [], ""⟩
    else .error "ENOENT"
  splitText := fun content => if content = "" then [] else [content]
  embed := fun cs => .ok (cs.map fun _ => List.replicate 768 0)
  noteIdOk := fun _ => true

/-- The store after ingesting a.md into an empty database. -/
def storeA : Store :=
  ⟨[⟨1, "a.md", none, none, "hi"⟩], [], [], [⟨1, 1, 0, "hi"⟩],
   [⟨1, List.replicate 768 0⟩], 2, 1, 2⟩

set_option maxRecDepth 100000 in
theorem claim_C1_rollback_witness :
    runIngest envA emptyStore "oldSnap"
        ([⟨.create, "a.md"⟩] ++ ⟨.create, "b.md"⟩ :: []) "newSnap" =
      ⟨emptyStore, "oldSnap", false, []⟩ :=
  claim_C1_rollback envA emptyStore "oldSnap" [⟨.create, "a.md"⟩]
    ⟨.create, "b.md"⟩ [] "newSnap" storeA [["hi"]] "ENOENT" (by rfl) (by rfl)

/-- C3: at every transaction boundary a vec_chunks row exists exactly when
its chunks row exists: starting from a well-formed store satisfying the
correspondence, any ingestion run (every chunk insert being paired with its
embedding insert, every chunk deletion firing the delete_chunk_embeddings
trigger) commits a store that still satisfies it, and remains well
formed. -/
theorem claim_C3_vec_chunk_invariant (env : Env) (store : Store)
    (snapshotFile : String) (changes : List Change) (newSnapshot : String)
    (hwf : StoreWF store) (hinv : vecInv store) :
    vecInv (runIngest env store snapshotFile changes newSnapshot).store ∧
    StoreWF (runIngest env store snapshotFile changes newSnapshot).store := by
  simp only [runIngest]
  split
  · exact ⟨hinv, hwf⟩
  · rcases h : processChanges env store changes with e | r <;> simp only [h]
    · exact ⟨hinv, hwf⟩
    · have := processChanges_WF_vecInv hwf hinv (by rw [h])
      exact ⟨this.2, this.1⟩

set_option maxRecDepth 100000 in
theorem claim_C3_vec_chunk_invariant_witness :
    vecInv (runIngest envA storeA "oldSnap" [⟨.delete, "a.md"⟩] "newSnap").store ∧
    StoreWF (runIngest envA storeA "oldSnap" [⟨.delete, "a.md"⟩] "newSnap").store :=
  claim_C3_vec_chunk_invariant envA storeA "oldSnap" [⟨.delete, "a.md"⟩] "newSnap"
    ⟨by decide, by decide, by decide, by decide, by decide⟩
    (by intro cid; simp [storeA])

/-- C6: a created or updated file whose chunker output is empty is skipped
entirely: no embedding call is made, the store is untouched (in particular
no Document is created when none existed for that path, and hence no chunk
or vector row can reference that path), and the run still reports
success. -/
theorem claim_C6_empty_file_skipped (env : Env) (store : Store)
    (snapshotFile : String) (ty : ChangeType) (path : String)
    (newSnapshot : String) (pf : ParsedFile)
    (hty : ty ≠ .delete)
    (hrp : env.readParse path = .ok pf)
    (hsplit : env.splitText pf.content = [])
    (hnew : ∀ n ∈ store.notes, n.file_path ≠ path) :
    runIngest env store snapshotFile [⟨ty, path⟩] newSnapshot =
      ⟨store, newSnapshot, true, []⟩ ∧
    ∀ n ∈ (runIngest env store snapshotFile [⟨ty, path⟩] newSnapshot).store.notes,
      n.file_path ≠ path := by
  have hpc : processChange env store ⟨ty, path⟩ = .ok (store, []) := by
    cases ty with
    | delete => exact absurd rfl hty
    | create => simp [processChange, hrp, hsplit]
    | update => simp [processChange, hrp, hsplit]
  have hpcs : processChanges env store [⟨ty, path⟩] = .ok (store, []) := by
    simp [processChanges, hpc]
  have hrun : runIngest env store snapshotFile [⟨ty, path⟩] newSnapshot =
      ⟨store, newSnapshot, true, []⟩ := by
    simp [runIngest, hpcs]
  refine ⟨hrun, ?_⟩
  intro n hn
  rw [hrun] at hn
  exact hnew n hn

theorem claim_C6_empty_file_skipped_witness :
    runIngest envA emptyStore "oldSnap" [⟨.create, "e.md"⟩] "newSnap" =
      ⟨emptyStore, "newSnap", true, []⟩ ∧
    ∀ n ∈ (runIngest envA emptyStore "oldSnap" [⟨.create, "e.md"⟩] "newSnap").store.notes,
      n.file_path ≠ "e.md" :=
  claim_C6_empty_file_skipped envA emptyStore "oldSnap" .create "e.md" "newSnap"
    ⟨none, none, [], ""⟩ (by simp) (by rfl) (by rfl) (by simp [emptyStore])

/-- C4: the SQL statement given to query_notes_db is executed only when,
after trimming and lowercasing, it starts with select or with.  The
ingestion store is never changed; a statement failing the gate is answered
with the structured rejection outcome independently of the executor (so it
is rejected before any execution); a statement passing the gate is handed
to the executor and an execution error comes back as a structured error
result. -/
theorem claim_C4_sql_gate (store : Store)
    (runSql : Store → String → Except String (List (List String)))
    (q : String) :
    (queryNotesDb store runSql q).1 = store ∧
    (¬(charsStart "select".data ((jsTrim q).map asciiToLower) = true ∨
       charsStart "with".data ((jsTrim q).map asciiToLower) = true) →
      ∀ runSql2, queryNotesDb store runSql2 q = (store, QueryOutcome.rejected)) ∧
    ((charsStart "select".data ((jsTrim q).map asciiToLower) = true ∨
      charsStart "with".data ((jsTrim q).map asciiToLower) = true) →
      (queryNotesDb store runSql q).2 =
        match runSql store q with
        | .error e => QueryOutcome.execError e
        | .ok rs => QueryOutcome.rows rs) := by
  refine ⟨?_, ?_, ?_⟩
  · unfold queryNotesDb
    split
    · rcases runSql store q with e | rs <;> rfl
    · rfl
  · intro hgate runSql2
    have hfalse : isAllowedQuery q = false := by
      simp only [isAllowedQuery, Bool.or_eq_false_iff, Bool.not_eq_true] at hgate ⊢
      push_neg at hgate
      exact ⟨Bool.not_eq_true _ |>.mp hgate.1, Bool.not_eq_true _ |>.mp hgate.2⟩
    simp [queryNotesDb, hfalse]
  · intro hgate
    have htrue : isAllowedQuery q = true := by
      simp only [isAllowedQuery, Bool.or_eq_true]
      exact hgate
    simp only [queryNotesDb, htrue, if_true]
    rcases h : runSql store q with e | rs <;> simp [h]

theorem claim_C4_sql_gate_witness :
    queryNotesDb emptyStore (fun _ _ => .ok []) "DROP TABLE notes" =
      (emptyStore, QueryOutcome.rejected) ∧
    (queryNotesDb emptyStore (fun _ _ => .ok []) "  SELECT 1").2 =
      QueryOutcome.rows [] := by
  have h1 := claim_C4_sql_gate emptyStore (fun _ _ => .ok []) "DROP TABLE notes"
  have h2 := claim_C4_sql_gate emptyStore (fun _ _ => .ok []) "  SELECT 1"
  exact ⟨h1.2.1 (by decide) (fun _ _ => .ok []), h2.2.2 (by decide)⟩

instance : IsTotal (Nat × Rat) fun a b => a.2 ≤ b.2 :=
  ⟨fun a b => le_total a.2 b.2⟩

instance : IsTrans (Nat × Rat) fun a b => a.2 ≤ b.2 :=
  ⟨fun _ _ _ h1 h2 => le_trans h1 h2⟩

/-- C5: search_notes_db returns min(limit, vector count) results; they are
ordered by ascending distance (equivalently descending similarity, since
similarity is one minus distance); each result carries the owning note path,
the chunk content and chunk index of the chunk whose vector was matched,
with similarity equal to 1 minus that vector distance; and the selected
vectors are nearest: every unselected vector row lies at a distance at least
that of every selected one. -/
theorem claim_C5_semantic_search (store : Store)
    (dist : List Rat → List Rat → Rat) (queryEmbedding : List Rat)
    (limit : Nat)
    (h1 : ∀ v ∈ store.vecChunks, ∃ c ∈ store.chunks, c.id = v.chunk_id)
    (h2 : ∀ c ∈ store.chunks, ∃ n ∈ store.notes, n.id = c.note_id) :
    (searchNotesDb store dist queryEmbedding limit).length =
      min limit store.vecChunks.length ∧
    List.Chain' (fun r1 r2 => r2.similarity ≤ r1.similarity)
      (searchNotesDb store dist queryEmbedding limit) ∧
    (∀ row ∈ searchNotesDb store dist queryEmbedding limit,
      ∃ v ∈ store.vecChunks, ∃ c ∈ store.chunks, ∃ n ∈ store.notes,
        c.id = v.chunk_id ∧ n.id = c.note_id ∧
        row.file_path = some n.file_path ∧ row.content = some c.content ∧
        row.chunk_index = some c.chunk_index ∧
        row.similarity = 1 - dist queryEmbedding v.chunk_embeddings) ∧
    ∃ rest : List (Nat × Rat),
      (matchedChunks store dist queryEmbedding limit ++ rest).Perm
        (store.vecChunks.map fun v =>
          (v.chunk_id, dist queryEmbedding v.chunk_embeddings)) ∧
      ∀ p ∈ matchedChunks store dist queryEmbedding limit, ∀ q ∈ rest,
        p.2 ≤ q.2 := by
  have hsorted := List.sorted_insertionSort (fun a b : Nat × Rat => a.2 ≤ b.2)
    (store.vecChunks.map fun v =>
      (v.chunk_id, dist queryEmbedding v.chunk_embeddings))
  have hmatched : List.Pairwise (fun a b : Nat × Rat => a.2 ≤ b.2)
      (matchedChunks store dist queryEmbedding limit) :=
    List.Pairwise.sublist (List.take_sublist _ _) hsorted
  refine ⟨?_, ?_, ?_, ?_⟩
  · simp [searchNotesDb, matchedChunks, List.length_take,
      List.length_insertionSort]
  · apply List.Pairwise.chain'
    apply List.Pairwise.map _ _ hmatched
    intro a b hab
    exact sub_le_sub_left hab 1
  · intro row hrow
    obtain ⟨m, hm, rfl⟩ := List.mem_map.mp hrow
    have hm2 : m ∈ List.insertionSort (fun a b : Nat × Rat => a.2 ≤ b.2)
        (store.vecChunks.map fun v =>
          (v.chunk_id, dist queryEmbedding v.chunk_embeddings)) := by
      simp only [matchedChunks] at hm
      exact List.Sublist.mem hm (List.take_sublist _ _)
    have hall := (List.perm_insertionSort (fun a b : Nat × Rat => a.2 ≤ b.2)
      _).mem_iff.mp hm2
    obtain ⟨v, hv, hveq⟩ := List.mem_map.mp hall
    obtain ⟨c, hc, hcid⟩ := h1 v hv
    have hsome : (store.chunks.find? fun c2 => c2.id == m.1).isSome :=
      List.find?_isSome.mpr ⟨c, hc, by rw [← hveq]; simp [hcid]⟩
    rcases hfind : store.chunks.find? (fun c2 => c2.id == m.1) with _ | c0
    · rw [hfind] at hsome
      simp at hsome
    · have hc0mem := List.mem_of_find?_eq_some hfind
      have hc0id : c0.id = m.1 := by simpa using List.find?_some hfind
      obtain ⟨n, hn, hnid⟩ := h2 c0 hc0mem
      have hsomeN : (store.notes.find? fun n2 => n2.id == c0.note_id).isSome :=
        List.find?_isSome.mpr ⟨n, hn, by simp [hnid]⟩
      rcases hfindN : store.notes.find? (fun n2 => n2.id == c0.note_id) with _ | n0
      · rw [hfindN] at hsomeN
        simp at hsomeN
      · have hn0mem := List.mem_of_find?_eq_some hfindN
        have hn0id : n0.id = c0.note_id := by simpa using List.find?_some hfindN
        refine ⟨v, hv, c0, hc0mem, n0, hn0mem, ?_, hn0id, ?_, ?_, ?_, ?_⟩
        · rw [hc0id, ← hveq]
        · simp [hfind, hfindN]
        · simp [hfind]
        · simp [hfind]
        · have : m.2 = dist queryEmbedding v.chunk_embeddings := by rw [← hveq]
          simp [this]
  · refine ⟨(List.insertionSort (fun a b : Nat × Rat => a.2 ≤ b.2)
      (store.vecChunks.map fun v =>
        (v.chunk_id, dist queryEmbedding v.chunk_embeddings))).drop limit,
      ?_, ?_⟩
    · rw [matchedChunks, List.take_append_drop]
      exact List.perm_insertionSort _ _
    · have hsorted2 : List.Pairwise (fun a b : Nat × Rat => a.2 ≤ b.2)
          (matchedChunks store dist queryEmbedding limit ++
           (List.insertionSort (fun a b : Nat × Rat => a.2 ≤ b.2)
             (store.vecChunks.map fun v =>
               (v.chunk_id, dist queryEmbedding v.chunk_embeddings))).drop
             limit) := by
        rw [matchedChunks, List.take_append_drop]
        exact hsorted
      exact (List.pairwise_append.mp hsorted2).2.2

set_option maxRecDepth 100000 in
theorem claim_C5_semantic_search_witness :
    (searchNotesDb storeA (fun _ _ => 0) [] 5).length =
      min 5 storeA.vecChunks.length ∧
    List.Chain' (fun r1 r2 => r2.similarity ≤ r1.similarity)
      (searchNotesDb storeA (fun _ _ => 0) [] 5) := by
  have h := claim_C5_semantic_search storeA (fun _ _ => 0) [] 5
    (by decide) (by decide)
  exact ⟨h.1, h.2.1⟩

/-- The chunk+vector insertion loop reads and writes only the chunk-side
fields: running it on a store with the same chunk-side fields gives the same
outcome with the other fields carried over. -/
theorem insertChunksWithVecs_ext (nid : Nat) (es : List (List Rat)) :
    ∀ (cs : List String) (i : Nat) (a b : Store),
    b.chunks = a.chunks → b.vecChunks = a.vecChunks →
    b.nextChunkId = a.nextChunkId →
    insertChunksWithVecs nid es b cs i =
      (insertChunksWithVecs nid es a cs i).map fun x =>
        { x with
          notes := b.notes, tags := b.tags, notesTags := b.notesTags,
          nextNoteId := b.nextNoteId, nextTagId := b.nextTagId }
  | [], i, a, b, hc, hv, hn => by
    simp only [insertChunksWithVecs, Except.map]
    rw [Except.ok.injEq]
    ext <;> simp [hc, hv, hn]
  | c :: rest, i, a, b, hc, hv, hn => by
    simp only [insertChunksWithVecs, insertChunk, insertVecChunk, hc, hv, hn]
    split
    · rename_i e heq
      split at heq
      · rename_i hd
        rw [Except.error.injEq] at heq
        subst heq
        rw [if_pos hd]
        simp [Except.map]
      · rename_i hd
        split at heq
        · rename_i hp
          rw [Except.error.injEq] at heq
          subst heq
          rw [if_neg hd, if_pos hp]
          simp [Except.map]
        · simp at heq
    · rename_i s2 heq
      split at heq
      · simp at heq
      · rename_i hd
        split at heq
        · simp at heq
        · rename_i hp
          rw [Except.ok.injEq] at heq
          subst heq
          rw [if_neg hd, if_neg hp]
          exact insertChunksWithVecs_ext nid es rest (i + 1) _ _
            (by simp) (by simp) (by simp)

/-- The tag insertion loop reads and writes only the tag-side fields:
running it on a store with the same tag-side fields gives the same tag-side
results with the other fields carried over. -/
theorem insertTags_ext (nid : Nat) : ∀ (ts : List String) (a b : Store),
    b.tags = a.tags → b.notesTags = a.notesTags → b.nextTagId = a.nextTagId →
    insertTags nid b ts =
      { insertTags nid a ts with
        notes := b.notes, chunks := b.chunks, vecChunks := b.vecChunks,
        nextNoteId := b.nextNoteId, nextChunkId := b.nextChunkId }
  | [], a, b, ht, hl, hn => by
    simp only [insertTags]
    ext <;> simp [ht, hl, hn]
  | t :: ts, a, b, ht, hl, hn => by
    have hbf := upsertTag_fields b t
    have haf := upsertTag_fields a t
    have hu1 : (upsertTag b t).1 = (upsertTag a t).1 := by
      simp only [upsertTag, ht]
      rcases hf : a.tags.find? (fun tg => tg.name == t) with _ | tg <;> simp [hf, hn]
    have hu2tags : (upsertTag b t).2.tags = (upsertTag a t).2.tags := by
      simp only [upsertTag, ht]
      rcases hf : a.tags.find? (fun tg => tg.name == t) with _ | tg <;> simp [hf, ht, hn]
    have hu2next : (upsertTag b t).2.nextTagId = (upsertTag a t).2.nextTagId := by
      simp only [upsertTag, ht]
      rcases hf : a.tags.find? (fun tg => tg.name == t) with _ | tg <;> simp [hf, hn]
    have hl1 : (upsertTag b t).2.notesTags = (upsertTag a t).2.notesTags := by
      rw [hbf.2.1, haf.2.1, hl]
    have hi_tags : (insertNoteTag (upsertTag b t).2 nid (upsertTag a t).1).tags =
        (insertNoteTag (upsertTag a t).2 nid (upsertTag a t).1).tags := by
      rw [(insertNoteTag_fields _ _ _).2.1, (insertNoteTag_fields _ _ _).2.1, hu2tags]
    have hi_links : (insertNoteTag (upsertTag b t).2 nid (upsertTag a t).1).notesTags =
        (insertNoteTag (upsertTag a t).2 nid (upsertTag a t).1).notesTags := by
      simp only [insertNoteTag, hl1]
      split <;> simp [hl1]
    have hi_next : (insertNoteTag (upsertTag b t).2 nid (upsertTag a t).1).nextTagId =
        (insertNoteTag (upsertTag a t).2 nid (upsertTag a t).1).nextTagId := by
      rw [(insertNoteTag_fields _ _ _).2.2.2.2.2.1,
        (insertNoteTag_fields _ _ _).2.2.2.2.2.1, hu2next]
    have ih := insertTags_ext nid ts
      (insertNoteTag (upsertTag a t).2 nid (upsertTag a t).1)
      (insertNoteTag (upsertTag b t).2 nid (upsertTag a t).1)
      hi_tags hi_links hi_next
    have e1 : (insertNoteTag (upsertTag b t).2 nid (upsertTag a t).1).notes = b.notes := by
      rw [(insertNoteTag_fields _ _ _).1, hbf.1]
    have e2 : (insertNoteTag (upsertTag b t).2 nid (upsertTag a t).1).chunks = b.chunks := by
      rw [(insertNoteTag_fields _ _ _).2.2.1, hbf.2.2.1]
    have e3 : (insertNoteTag (upsertTag b t).2 nid (upsertTag a t).1).vecChunks = b.vecChunks := by
      rw [(insertNoteTag_fields _ _ _).2.2.2.1, hbf.2.2.2.1]
    have e4 : (insertNoteTag (upsertTag b t).2 nid (upsertTag a t).1).nextNoteId = b.nextNoteId := by
      rw [(insertNoteTag_fields _ _ _).2.2.2.2.1, hbf.2.2.2.2.1]
    have e5 : (insertNoteTag (upsertTag b t).2 nid (upsertTag a t).1).nextChunkId = b.nextChunkId := by
      rw [(insertNoteTag_fields _ _ _).2.2.2.2.2.2, hbf.2.2.2.2.2]
    simp only [insertTags]
    rw [hu1, ih]
    ext <;> simp [e1, e2, e3, e4, e5]

/-- C7: for a created or updated file with a non-empty chunk list, the
per-file processing embeds all chunks of the file in one single embedding
call (the call log is exactly one batch holding every chunk) and its store
effect equals upsertDocument followed by replaceChunks followed by
replaceTags, in that order - the replacement happening unconditionally,
whether or not the document row changed. -/
theorem claim_C7_per_file_order (env : Env) (s : Store) (chg : Change)
    (pf : ParsedFile) (cs : List String) (es : List (List Rat))
    (hty : chg.type ≠ .delete)
    (hrp : env.readParse chg.filePath = .ok pf)
    (hsplit : env.splitText pf.content = cs)
    (hcs : cs ≠ [])
    (hembed : env.embed cs = .ok es)
    (hid : env.noteIdOk chg.filePath = true) :
    processChange env s chg =
      (replaceChunks (upsertNote s chg.filePath pf.title pf.description pf.content).2
          (upsertNote s chg.filePath pf.title pf.description pf.content).1 cs es).map
        fun x =>
          (replaceTags x (upsertNote s chg.filePath pf.title pf.description pf.content).1
             pf.tags, [cs]) := by
  subst hsplit
  rcases chg with ⟨ty, fp⟩
  have hne : (env.splitText pf.content).isEmpty = false :=
    List.isEmpty_eq_false.mpr hcs
  have hmain : ∀ h : Except String (Store × List (List String)),
      h = (insertChunksWithVecs (upsertNote s fp pf.title pf.description pf.content).1 es
            (insertTags (upsertNote s fp pf.title pf.description pf.content).1
              (deleteNotesTagsByNoteId
                (deleteChunksByNoteId
                  (upsertNote s fp pf.title pf.description pf.content).2
                  (upsertNote s fp pf.title pf.description pf.content).1)
                (upsertNote s fp pf.title pf.description pf.content).1)
              pf.tags)
            (env.splitText pf.content) 0).map (fun s4 => (s4, [env.splitText pf.content])) →
      h = (replaceChunks (upsertNote s fp pf.title pf.description pf.content).2
            (upsertNote s fp pf.title pf.description pf.content).1
            (env.splitText pf.content) es).map
          fun x =>
            (replaceTags x (upsertNote s fp pf.title pf.description pf.content).1
              pf.tags, [env.splitText pf.content]) := by
    intro h hdef
    subst hdef
    set nid := (upsertNote s fp pf.title pf.description pf.content).1 with hnid
    set S1 := (upsertNote s fp pf.title pf.description pf.content).2 with hS1
    set A := deleteChunksByNoteId S1 nid with hA
    set T := insertTags nid (deleteNotesTagsByNoteId A nid) pf.tags with hT
    have hTf := insertTags_fields nid pf.tags (deleteNotesTagsByNoteId A nid)
    have hext := insertChunksWithVecs_ext nid es (env.splitText pf.content) 0 A T
      hTf.2.1 hTf.2.2.1 hTf.2.2.2.2
    rw [replaceChunks, ← hA, hext]
    rcases hres : insertChunksWithVecs nid es A (env.splitText pf.content) 0 with e | x
    · simp [Except.map]
    · simp only [Except.map]
      rw [Except.ok.injEq, Prod.mk.injEq]
      refine ⟨?_, rfl⟩
      obtain ⟨x1, x2, x3, x4, x5, x6, x7, x8⟩ :=
        insertChunksWithVecs_ok nid es (env.splitText pf.content) 0 A x hres
      have hext2 := insertTags_ext nid pf.tags (deleteNotesTagsByNoteId A nid)
        (deleteNotesTagsByNoteId x nid) (by simp [deleteNotesTagsByNoteId, x2])
        (by simp [deleteNotesTagsByNoteId, x3]) (by simp [deleteNotesTagsByNoteId, x5])
      rw [replaceTags, hext2, ← hT]
      apply Store.ext <;>
        simp [hT, deleteNotesTagsByNoteId, hTf.1, hTf.2.2.2.1, x1, x4]
      · exact (insertTags_fields _ _ _).1
      · exact (insertTags_fields _ _ _).2.2.2.1
  rcases hty2 : ty with _ | _ | _
  · exact hmain _ (by simp [processChange, hrp, hne, hembed, hid])
  · exact hmain _ (by simp [processChange, hrp, hne, hembed, hid])
  · exact absurd hty2 hty

set_option maxRecDepth 100000 in
theorem claim_C7_per_file_order_witness :
    processChange envA emptyStore ⟨.create, "a.md"⟩ =
      (replaceChunks (upsertNote emptyStore "a.md" none none "hi").2
          (upsertNote emptyStore "a.md" none none "hi").1 ["hi"]
          [List.replicate 768 0]).map
        fun x =>
          (replaceTags x (upsertNote emptyStore "a.md" none none "hi").1 [],
           [["hi"]]) :=
  claim_C7_per_file_order envA emptyStore ⟨.create, "a.md"⟩ ⟨none, none, [], "hi"⟩
    ["hi"] [List.replicate 768 0] (by decide) rfl rfl (by simp) rfl rfl

/-- upsertTag preserves uniqueness of tag names. -/
theorem upsertTag_tagNodup {s : Store}
    (h : (s.tags.map fun tg => tg.name).Nodup) (name : String) :
    ((upsertTag s name).2.tags.map fun tg => tg.name).Nodup := by
  simp only [upsertTag]
  split
  · exact h
  · rename_i hnone
    simp only [List.map_append, List.map_cons, List.map_nil]
    rw [List.nodup_append]
    refine ⟨h, List.nodup_singleton _, ?_⟩
    intro x hx hx'
    simp only [List.mem_singleton] at hx'
    subst hx'
    obtain ⟨t, ht, rfl⟩ := List.mem_map.mp hx
    exact absurd (by simp : (fun tg => tg.name == t.name) t = true)
      (List.find?_eq_none.mp hnone t ht)

/-- insertTags preserves uniqueness of tag names. -/
theorem insertTags_tagNodup (nid : Nat) : ∀ (ts : List String) {s : Store},
    (s.tags.map fun tg => tg.name).Nodup →
    ((insertTags nid s ts).tags.map fun tg => tg.name).Nodup
  | [], _, h => h
  | t :: ts, s, h => by
    have h1 := upsertTag_tagNodup h t
    rw [← (insertNoteTag_fields (upsertTag s t).2 nid (upsertTag s t).1).2.1] at h1
    exact insertTags_tagNodup nid ts h1

/-- Processing one change only appends to the tags table. -/
theorem processChange_tags_append {env : Env} {s : Store} {chg : Change}
    {s' : Store} {calls : List (List String)}
    (hok : processChange env s chg = .ok (s', calls)) :
    ∃ l, s'.tags = s.tags ++ l := by
  rcases chg with ⟨ty, fp⟩
  cases ty <;> simp only [processChange] at hok
  case delete =>
    rw [Except.ok.injEq, Prod.mk.injEq] at hok
    exact ⟨[], by rw [← hok.1]; simp [deleteNote]⟩
  all_goals
    rcases hrp : env.readParse fp with e | pf <;> simp only [hrp] at hok
    · simp at hok
    · split at hok
      · rw [Except.ok.injEq, Prod.mk.injEq] at hok
        exact ⟨[], by rw [← hok.1]; simp⟩
      · rcases hem : env.embed (env.splitText pf.content) with e | es <;>
          simp only [hem] at hok
        · simp at hok
        · split at hok
          · rw [Except.ok.injEq, Prod.mk.injEq] at hok
            refine ⟨[], ?_⟩
            rw [← hok.1]
            simp only [upsertNote]
            split <;> simp
          · obtain ⟨s4, hs4, heq⟩ := exceptMap_ok hok
            rw [Prod.mk.injEq] at heq
            rw [← heq.1]
            have e2 := (insertChunksWithVecs_ok _ _ _ _ _ _ hs4).2.1
            rw [e2]
            obtain ⟨l, hl⟩ := insertTags_tags_append
              (upsertNote s fp pf.title pf.description pf.content).1 pf.tags
              (deleteNotesTagsByNoteId
                (deleteChunksByNoteId
                  (upsertNote s fp pf.title pf.description pf.content).2
                  (upsertNote s fp pf.title pf.description pf.content).1)
                (upsertNote s fp pf.title pf.description pf.content).1)
            rw [hl]
            refine ⟨l, ?_⟩
            simp only [deleteNotesTagsByNoteId, deleteChunksByNoteId]
            simp only [upsertNote]
            split <;> simp

/-- Processing one change preserves uniqueness of tag names. -/
theorem processChange_tagNodup {env : Env} {s : Store} {chg : Change}
    {s' : Store} {calls : List (List String)}
    (h : (s.tags.map fun tg => tg.name).Nodup)
    (hok : processChange env s chg = .ok (s', calls)) :
    (s'.tags.map fun tg => tg.name).Nodup := by
  rcases chg with ⟨ty, fp⟩
  cases ty <;> simp only [processChange] at hok
  case delete =>
    rw [Except.ok.injEq, Prod.mk.injEq] at hok
    rw [← hok.1]
    exact h
  all_goals
    rcases hrp : env.readParse fp with e | pf <;> simp only [hrp] at hok
    · simp at hok
    · split at hok
      · rw [Except.ok.injEq, Prod.mk.injEq] at hok
        rw [← hok.1]
        exact h
      · rcases hem : env.embed (env.splitText pf.content) with e | es <;>
          simp only [hem] at hok
        · simp at hok
        · split at hok
          · rw [Except.ok.injEq, Prod.mk.injEq] at hok
            rw [← hok.1]
            simp only [upsertNote]
            split <;> exact h
          · obtain ⟨s4, hs4, heq⟩ := exceptMap_ok hok
            rw [Prod.mk.injEq] at heq
            rw [← heq.1]
            have e2 := (insertChunksWithVecs_ok _ _ _ _ _ _ hs4).2.1
            rw [e2]
            apply insertTags_tagNodup
            have hup : ((upsertNote s fp pf.title pf.description pf.content).2.tags.map
                fun tg => tg.name).Nodup := by
              simp only [upsertNote]
              split <;> exact h
            exact hup

/-- Processing a batch only appends to the tags table and preserves
uniqueness of tag names. -/
theorem processChanges_tags {env : Env} :
    ∀ {changes : List Change} {s s' : Store} {calls : List (List String)},
    (s.tags.map fun tg => tg.name).Nodup →
    processChanges env s changes = .ok (s', calls) →
    (∃ l, s'.tags = s.tags ++ l) ∧ (s'.tags.map fun tg => tg.name).Nodup
  | [], s, s', calls, h, hok => by
    simp only [processChanges, Except.ok.injEq, Prod.mk.injEq] at hok
    rw [← hok.1]
    exact ⟨⟨[], by simp⟩, h⟩
  | c :: rest, s, s', calls, h, hok => by
    simp only [processChanges] at hok
    rcases h1 : processChange env s c with e | r <;> simp only [h1] at hok
    · simp at hok
    · rcases h2 : processChanges env r.1 rest with e | r2 <;> simp only [h2] at hok
      · simp at hok
      · rw [Except.ok.injEq, Prod.mk.injEq] at hok
        obtain ⟨l1, hl1⟩ := processChange_tags_append (by rw [h1])
        have hn1 := processChange_tagNodup h (by rw [h1] : processChange env s c = .ok (r.1, r.2))
        obtain ⟨⟨l2, hl2⟩, hn2⟩ := processChanges_tags hn1 h2
        rw [← hok.1]
        exact ⟨⟨l1 ++ l2, by rw [hl2, hl1, List.append_assoc]⟩, hn2⟩

/-- A concrete environment: x.md and y.md both carry tag go. -/
def envC : Env where
  readParse := fun fp =>
    if fp = "x.md" then .ok ⟨none, none, ["go"], "xbody"⟩
    else if fp = "y.md" then .ok ⟨none, none, ["go"], "ybody"⟩
    else .error "ENOENT"
  splitText := fun content => if content = "" then [] else [content]
  embed := fun cs => .ok (cs.map fun _ => List.replicate 768 0)
  noteIdOk := fun _ => true

/-- A concrete environment: x.md carries tag go, y.md carries tag Go. -/
def envD : Env where
  readParse := fun fp =>
    if fp = "x.md" then .ok ⟨none, none, ["go"], "xbody"⟩
    else if fp = "y.md" then .ok ⟨none, none, ["Go"], "ybody"⟩
    else .error "ENOENT"
  splitText := fun content => if content = "" then [] else [content]
  embed := fun cs => .ok (cs.map fun _ => List.replicate 768 0)
  noteIdOk := fun _ => true

set_option maxRecDepth 1000000 in
/-- C8: tag names are globally unique and matched case-sensitively, and no
operation ever deletes a Tag row.  Any ingestion run preserves uniqueness of
tag names and only appends to the tags table (so every pre-existing tag row,
orphaned or not, survives); deleteNote removes the tag links of the document
but never a tags row; ingesting two documents both tagged go yields exactly
one tag row referenced by two document-tag links, while go and Go yield two
distinct rows. -/
theorem claim_C8_tag_invariants (env : Env) (store : Store)
    (snapshotFile : String) (changes : List Change) (newSnapshot : String)
    (hnodup : (store.tags.map fun tg => tg.name).Nodup) :
    (((runIngest env store snapshotFile changes newSnapshot).store.tags.map
        fun tg => tg.name).Nodup) ∧
    (∃ l, (runIngest env store snapshotFile changes newSnapshot).store.tags =
      store.tags ++ l) ∧
    (∀ (s2 : Store) (fp : String), (deleteNote s2 fp).tags = s2.tags) ∧
    (runIngest envC emptyStore "o" [⟨.create, "x.md"⟩, ⟨.create, "y.md"⟩]
      "n").store.tags = [⟨1, "go"⟩] ∧
    (runIngest envC emptyStore "o" [⟨.create, "x.md"⟩, ⟨.create, "y.md"⟩]
      "n").store.notesTags = [⟨1, 1⟩, ⟨2, 1⟩] ∧
    (runIngest envD emptyStore "o" [⟨.create, "x.md"⟩, ⟨.create, "y.md"⟩]
      "n").store.tags = [⟨1, "go"⟩, ⟨2, "Go"⟩] := by
  refine ⟨?_, ?_, fun s2 fp => rfl, by decide, by decide, by decide⟩
  · simp only [runIngest]
    split
    · exact hnodup
    · rcases h : processChanges env store changes with e | r <;> simp only [h]
      · exact hnodup
      · exact (processChanges_tags hnodup (by rw [h])).2
  · simp only [runIngest]
    split
    · exact ⟨[], by simp⟩
    · rcases h : processChanges env store changes with e | r <;> simp only [h]
      · exact ⟨[], by simp⟩
      · exact (processChanges_tags hnodup (by rw [h])).1

set_option maxRecDepth 1000000 in
theorem claim_C8_tag_invariants_witness :
    ((runIngest envA emptyStore "o" [] "n").store.tags.map
      fun tg => tg.name).Nodup ∧
    (runIngest envC emptyStore "o" [⟨.create, "x.md"⟩, ⟨.create, "y.md"⟩]
      "n").store.tags = [⟨1, "go"⟩] := by
  have h := claim_C8_tag_invariants envA emptyStore "o" [] "n"
    (by simp [emptyStore])
  exact ⟨h.1, h.2.2.2.1⟩

/-- A concrete environment whose embedding endpoint returns two vectors for
every request, also for a one-chunk batch: a count mismatch. -/
def envE : Env where
  readParse := fun fp =>
    if fp = "x.md" then .ok ⟨none, none, [], "xbody"⟩ else .error "ENOENT"
  splitText := fun content => if content = "" then [] else [content]
  embed := fun _ => .ok [List.replicate 768 0, List.replicate 768 1]
  noteIdOk := fun _ => true

set_option maxRecDepth 1000000 in
/-- C9 counterexample: the embedding endpoint returns two vectors for the
single submitted chunk - a count different from the number of chunks - yet
the run commits, advances the snapshot and reports success, instead of the
claimed failure with full rollback.  Only the first vector is used; the
excess is silently ignored. -/
theorem claim_C9_counterexample :
    envE.splitText "xbody" = ["xbody"] ∧
    envE.embed ["xbody"] = .ok [List.replicate 768 0, List.replicate 768 1] ∧
    [List.replicate 768 (0 : Rat), List.replicate 768 1].length ≠
      ["xbody"].length ∧
    (runIngest envE emptyStore "oldSnap" [⟨.create, "x.md"⟩] "newSnap").success
      = true ∧
    (runIngest envE emptyStore "oldSnap" [⟨.create, "x.md"⟩]
      "newSnap").snapshotFile = "newSnap" ∧
    (runIngest envE emptyStore "oldSnap" [⟨.create, "x.md"⟩] "newSnap").store ≠
      emptyStore := by
  exact ⟨by rfl, by rfl, by decide, by decide, by decide, by decide⟩

/-- A successful batch never skips a change: every change in it was
processed successfully from some intermediate store. -/
theorem processChanges_mem_ok {env : Env} :
    ∀ {changes : List Change} {s s' : Store} {calls : List (List String)},
    processChanges env s changes = .ok (s', calls) →
    ∀ f ∈ changes, ∃ s0 r, processChange env s0 f = .ok r
  | [], s, s', calls, _, f, hf => by simp at hf
  | c :: rest, s, s', calls, hok, f, hf => by
    simp only [processChanges] at hok
    rcases h1 : processChange env s c with e | r <;> simp only [h1] at hok
    · simp at hok
    · rcases h2 : processChanges env r.1 rest with e | r2 <;> simp only [h2] at hok
      · simp at hok
      · rcases List.mem_cons.mp hf with rfl | hf2
        · exact ⟨s, r, h1⟩
        · exact processChanges_mem_ok h2 f hf2

/-- With an embedding endpoint that fails, or returns fewer vectors than
chunks, processing the file raises, whatever the store state: the missing
vector manifests as an empty Float32Array rejected by the vec0 dimension
check. -/
theorem processChange_embedFailure {env : Env} {f : Change} {pf : ParsedFile}
    {cs : List String}
    (hty : f.type ≠ .delete)
    (hrp : env.readParse f.filePath = .ok pf)
    (hsplit : env.splitText pf.content = cs)
    (hcs : cs ≠ [])
    (hid : env.noteIdOk f.filePath = true)
    (hbad : (∃ e, env.embed cs = .error e) ∨
      (∃ es, env.embed cs = .ok es ∧ es.length < cs.length)) :
    ∀ s : Store, ∃ e, processChange env s f = .error e := by
  intro s
  subst hsplit
  rcases f with ⟨ty, fp⟩
  have hne : (env.splitText pf.content).isEmpty = false :=
    List.isEmpty_eq_false.mpr hcs
  have hmain : ∃ e,
      (match env.embed (env.splitText pf.content) with
        | .error e => .error e
        | .ok es =>
          let r := upsertNote s fp pf.title pf.description pf.content
          if env.noteIdOk fp = false then
            .ok (r.2, [env.splitText pf.content])
          else
            let s1 := deleteChunksByNoteId r.2 r.1
            let s2 := deleteNotesTagsByNoteId s1 r.1
            let s3 := insertTags r.1 s2 pf.tags
            (insertChunksWithVecs r.1 es s3 (env.splitText pf.content) 0).map
              fun s4 => (s4, [env.splitText pf.content])
        : Except String (Store × List (List String))) = .error e := by
    rcases hbad with ⟨e, he⟩ | ⟨es, hes, hlen⟩
    · exact ⟨e, by simp [he]⟩
    · simp only [hes, hid, Bool.true_eq_false, if_false]
      rcases hres : insertChunksWithVecs
          (upsertNote s fp pf.title pf.description pf.content).1 es
          (insertTags (upsertNote s fp pf.title pf.description pf.content).1
            (deleteNotesTagsByNoteId
              (deleteChunksByNoteId
                (upsertNote s fp pf.title pf.description pf.content).2
                (upsertNote s fp pf.title pf.description pf.content).1)
              (upsertNote s fp pf.title pf.description pf.content).1)
            pf.tags)
          (env.splitText pf.content) 0 with e | s4
      · exact ⟨e, by simp [Except.map]⟩
      · exfalso
        have hdims := insertChunksWithVecs_dims _ es _ 0 _ _ hres es.length hlen
        rw [Nat.zero_add] at hdims
        have : es.getD es.length [] = [] := by
          rw [List.getD_eq_getElem?_getD, List.getElem?_eq_none (Nat.le_refl _)]
          rfl
        rw [this] at hdims
        simp at hdims
  rcases ty with _ | _ | _
  · simpa [processChange, hrp, hne] using hmain
  · simpa [processChange, hrp, hne] using hmain
  · exact absurd rfl hty

/-- C9 as amended: for every ingestion run in which, for some processed
file, the embedding call fails or returns fewer vectors than the chunks
submitted, the run is treated as failed with a full rollback: no state
written during the run is visible afterwards, the snapshot is not advanced
and the process reports failure.  (Excess vectors beyond the chunk count,
by contrast, are silently ignored - see the counterexample.) -/
theorem claim_C9_embed_failure_rollback (env : Env) (store : Store)
    (snapshotFile : String) (changes : List Change) (newSnapshot : String)
    (f : Change) (pf : ParsedFile) (cs : List String)
    (hmem : f ∈ changes)
    (hty : f.type ≠ .delete)
    (hrp : env.readParse f.filePath = .ok pf)
    (hsplit : env.splitText pf.content = cs)
    (hcs : cs ≠ [])
    (hid : env.noteIdOk f.filePath = true)
    (hbad : (∃ e, env.embed cs = .error e) ∨
      (∃ es, env.embed cs = .ok es ∧ es.length < cs.length)) :
    runIngest env store snapshotFile changes newSnapshot =
      ⟨store, snapshotFile, false, []⟩ := by
  have hfail := processChange_embedFailure hty hrp hsplit hcs hid hbad
  have hne : changes ≠ [] := by
    rintro rfl
    simp at hmem
  simp only [runIngest]
  rw [if_neg (by simpa using hne)]
  rcases h : processChanges env store changes with e | r
  · rfl
  · exfalso
    obtain ⟨s0, r0, h0⟩ := processChanges_mem_ok (by rw [h]) f hmem
    obtain ⟨e, he⟩ := hfail s0
    rw [h0] at he
    simp at he

/-- A concrete environment whose embedding endpoint always fails. -/
def envF : Env where
  readParse := fun fp =>
    if fp = "x.md" then .ok ⟨none, none, [], "xbody"⟩ else .error "ENOENT"
  splitText := fun content => if content = "" then [] else [content]
  embed := fun _ => .error "embedding endpoint down"
  noteIdOk := fun _ => true

theorem claim_C9_embed_failure_rollback_witness :
    runIngest envF emptyStore "oldSnap" [⟨.create, "x.md"⟩] "newSnap" =
      ⟨emptyStore, "oldSnap", false, []⟩ :=
  claim_C9_embed_failure_rollback envF emptyStore "oldSnap"
    [⟨.create, "x.md"⟩] "newSnap" ⟨.create, "x.md"⟩ ⟨none, none, [], "xbody"⟩
    ["xbody"] (by simp) (by decide) rfl rfl (by simp) rfl
    (Or.inl ⟨"embedding endpoint down", rfl⟩)

/-- A concrete environment in which the driver result of the upsertNote
statement carries no numeric id (the typeof noteId guard fires). -/
def envG : Env where
  readParse := fun fp =>
    if fp = "x.md" then .ok ⟨none, none, [], "xbody"⟩ else .error "ENOENT"
  splitText := fun content => if content = "" then [] else [content]
  embed := fun cs => .ok (cs.map fun _ => List.replicate 768 0)
  noteIdOk := fun _ => false

set_option maxRecDepth 1000000 in
/-- C10 counterexample: when the upsert result lacks a numeric id the run
indeed continues, commits and advances the snapshot, and no chunk, vector
or tag link is written - but the claim that the file content is silently
never stored is false: the upsertNote statement has already written the
note row with the full content before the guard inspects the returned
id. -/
theorem claim_C10_counterexample :
    (runIngest envG emptyStore "oldSnap" [⟨.create, "x.md"⟩] "newSnap").success
      = true ∧
    (runIngest envG emptyStore "oldSnap" [⟨.create, "x.md"⟩]
      "newSnap").snapshotFile = "newSnap" ∧
    (runIngest envG emptyStore "oldSnap" [⟨.create, "x.md"⟩] "newSnap").store.notes
      = [⟨1, "x.md", none, none, "xbody"⟩] ∧
    (runIngest envG emptyStore "oldSnap" [⟨.create, "x.md"⟩] "newSnap").store.chunks
      = [] ∧
    (runIngest envG emptyStore "oldSnap" [⟨.create, "x.md"⟩]
      "newSnap").store.vecChunks = [] ∧
    (runIngest envG emptyStore "oldSnap" [⟨.create, "x.md"⟩]
      "newSnap").store.notesTags = [] := by
  exact ⟨by decide, by decide, by decide, by decide, by decide, by decide⟩

/-- C10 as amended: if the upsert result for some file lacks a numeric id,
processing that file continues instead of aborting and leaves exactly the
upserted note row behind: the single-change run commits with the upserted
store, advances the snapshot and reports success, while chunks, vectors and
tag links stay untouched (the note row itself, with the file content, was
already written by the upsert statement), so the file is not retried on
later runs. -/
theorem claim_C10_upsert_guard (env : Env) (store : Store)
    (snapshotFile : String) (ty : ChangeType) (path : String)
    (newSnapshot : String) (pf : ParsedFile) (cs : List String)
    (es : List (List Rat))
    (hty : ty ≠ .delete)
    (hrp : env.readParse path = .ok pf)
    (hsplit : env.splitText pf.content = cs)
    (hcs : cs ≠ [])
    (hembed : env.embed cs = .ok es)
    (hid : env.noteIdOk path = false) :
    processChange env store ⟨ty, path⟩ =
      .ok ((upsertNote store path pf.title pf.description pf.content).2, [cs]) ∧
    runIngest env store snapshotFile [⟨ty, path⟩] newSnapshot =
      ⟨(upsertNote store path pf.title pf.description pf.content).2,
       newSnapshot, true, [cs]⟩ ∧
    (upsertNote store path pf.title pf.description pf.content).2.chunks =
      store.chunks ∧
    (upsertNote store path pf.title pf.description pf.content).2.vecChunks =
      store.vecChunks ∧
    (upsertNote store path pf.title pf.description pf.content).2.notesTags =
      store.notesTags := by
  subst hsplit
  have hne : (env.splitText pf.content).isEmpty = false :=
    List.isEmpty_eq_false.mpr hcs
  have hpc : processChange env store ⟨ty, path⟩ =
      .ok ((upsertNote store path pf.title pf.description pf.content).2,
        [env.splitText pf.content]) := by
    rcases ty with _ | _ | _
    · simp [processChange, hrp, hne, hembed, hid]
    · simp [processChange, hrp, hne, hembed, hid]
    · exact absurd rfl hty
  refine ⟨hpc, ?_, ?_, ?_, ?_⟩
  · simp [runIngest, processChanges, hpc]
  all_goals
    simp only [upsertNote]
    split <;> simp

set_option maxRecDepth 1000000 in
theorem claim_C10_upsert_guard_witness :
    processChange envG emptyStore ⟨.create, "x.md"⟩ =
      .ok ((upsertNote emptyStore "x.md" none none "xbody").2, [["xbody"]]) ∧
    runIngest envG emptyStore "oldSnap" [⟨.create, "x.md"⟩] "newSnap" =
      ⟨(upsertNote emptyStore "x.md" none none "xbody").2, "newSnap", true,
       [["xbody"]]⟩ ∧
    (upsertNote emptyStore "x.md" none none "xbody").2.chunks =
      emptyStore.chunks ∧
    (upsertNote emptyStore "x.md" none none "xbody").2.vecChunks =
      emptyStore.vecChunks ∧
    (upsertNote emptyStore "x.md" none none "xbody").2.notesTags =
      emptyStore.notesTags :=
  claim_C10_upsert_guard envG emptyStore "oldSnap" .create "x.md" "newSnap"
    ⟨none, none, [], "xbody"⟩ ["xbody"] [List.replicate 768 0]
    (by decide) rfl rfl (by simp) rfl rfl

/-- One step of the tag-loop idempotence argument: if the head upsertTag on
the re-run finds the tag produced by the first run and leaves the table
alone, the remaining names behave identically. -/
theorem insertTags_idem_step (nid : Nat) (ts : List String) (s t : Store)
    (name : String)
    (hupt : upsertTag t name = ((upsertTag s name).1, t))
    (h1 : t.tags = (insertTags nid s (name :: ts)).tags)
    (h2 : t.notesTags = s.notesTags)
    (ih : ∀ s' t' : Store, t'.tags = (insertTags nid s' ts).tags →
      t'.notesTags = s'.notesTags →
      (insertTags nid t' ts).tags = t'.tags ∧
      (insertTags nid t' ts).notesTags = (insertTags nid s' ts).notesTags) :
    (insertTags nid t (name :: ts)).tags = t.tags ∧
    (insertTags nid t (name :: ts)).notesTags =
      (insertTags nid s (name :: ts)).notesTags := by
  have hrun2 : insertTags nid t (name :: ts) =
      insertTags nid (insertNoteTag t nid (upsertTag s name).1) ts := by
    simp only [insertTags, hupt]
  have hrun1 : insertTags nid s (name :: ts) =
      insertTags nid (insertNoteTag (upsertTag s name).2 nid (upsertTag s name).1) ts :=
    rfl
  have hlinks1 : (upsertTag s name).2.notesTags = s.notesTags :=
    (upsertTag_fields s name).2.1
  have ht'_tags : (insertNoteTag t nid (upsertTag s name).1).tags = t.tags :=
    (insertNoteTag_fields _ _ _).2.1
  have ht'_links : (insertNoteTag t nid (upsertTag s name).1).notesTags =
      (insertNoteTag (upsertTag s name).2 nid (upsertTag s name).1).notesTags := by
    simp only [insertNoteTag, h2, hlinks1]
    split <;> simp [h2, hlinks1]
  have hih := ih (insertNoteTag (upsertTag s name).2 nid (upsertTag s name).1)
    (insertNoteTag t nid (upsertTag s name).1)
    (by rw [ht'_tags, h1, hrun1]) ht'_links
  rw [hrun2, hrun1]
  exact ⟨by rw [hih.1, ht'_tags], hih.2⟩

/-- Re-running the tag loop with the same names against the state left by a
first run (links for the note reset to the same base) changes nothing: the
tags table stays as it is and the links come out identical. -/
theorem insertTags_idem (nid : Nat) : ∀ (ts : List String) (s t : Store),
    t.tags = (insertTags nid s ts).tags →
    t.notesTags = s.notesTags →
    (insertTags nid t ts).tags = t.tags ∧
    (insertTags nid t ts).notesTags = (insertTags nid s ts).notesTags
  | [], s, t, h1, h2 => ⟨rfl, by simpa [insertTags] using h2⟩
  | name :: ts, s, t, h1, h2 => by
    obtain ⟨l, hl⟩ := insertTags_tags_append nid ts
      (insertNoteTag (upsertTag s name).2 nid (upsertTag s name).1)
    rcases hf : s.tags.find? (fun tg => tg.name == name) with _ | tg
    · have hup1 : (upsertTag s name).2.tags = s.tags ++ [⟨s.nextTagId, name⟩] := by
        simp [upsertTag, hf]
      have hfst0 : (upsertTag s name).1 = s.nextTagId := by
        simp [upsertTag, hf]
      have hfst : (upsertTag s name).1 = s.nextTagId := hfst0
      have htags : t.tags = (s.tags ++ [⟨s.nextTagId, name⟩]) ++ l := by
        rw [h1]
        show (insertTags nid (insertNoteTag (upsertTag s name).2 nid
          (upsertTag s name).1) ts).tags = _
        rw [hl, (insertNoteTag_fields _ _ _).2.1, hup1]
      have hupt : upsertTag t name = ((upsertTag s name).1, t) := by
        rw [hfst]
        simp only [upsertTag, htags]
        rw [List.find?_append, List.find?_append, hf]
        simp
      exact insertTags_idem_step nid ts s t name hupt h1 h2
        (fun s' t' => insertTags_idem nid ts s' t')
    · have hup1 : upsertTag s name = (tg.id, s) := by simp [upsertTag, hf]
      have hfst : (upsertTag s name).1 = tg.id := by rw [hup1]
      have htags : t.tags = s.tags ++ l := by
        rw [h1]
        show (insertTags nid (insertNoteTag (upsertTag s name).2 nid
          (upsertTag s name).1) ts).tags = _
        rw [hl, (insertNoteTag_fields _ _ _).2.1, hup1]
      have hupt : upsertTag t name = ((upsertTag s name).1, t) := by
        rw [hfst]
        simp only [upsertTag, htags]
        rw [List.find?_append, hf]
        simp
      exact insertTags_idem_step nid ts s t name hupt h1 h2
        (fun s' t' => insertTags_idem nid ts s' t')

/-- upsertNote touches only the notes and nextNoteId fields. -/
theorem upsertNote_fields (s : Store) (fp : String)
    (title description : Option String) (content : String) :
    (upsertNote s fp title description content).2.tags = s.tags ∧
    (upsertNote s fp title description content).2.notesTags = s.notesTags ∧
    (upsertNote s fp title description content).2.chunks = s.chunks ∧
    (upsertNote s fp title description content).2.vecChunks = s.vecChunks ∧
    (upsertNote s fp title description content).2.nextTagId = s.nextTagId ∧
    (upsertNote s fp title description content).2.nextChunkId = s.nextChunkId := by
  simp only [upsertNote]
  split <;> simp

/-- After a map-update of the notes rows matching a path, the first row
matching that path is the updated version of the previously first one. -/
theorem find?_map_update (fp : String) (title description : Option String)
    (content : String) : ∀ (l : List Note) (n : Note),
    l.find? (fun m => m.file_path == fp) = some n →
    (l.map fun m =>
      if m.file_path == fp then
        { m with title := title, description := description, content := content }
      else m).find? (fun m => m.file_path == fp) =
      some ⟨n.id, fp, title, description, content⟩
  | [], n, h => by simp at h
  | m :: rest, n, h => by
    simp only [List.map_cons]
    rcases hm : (m.file_path == fp) with _ | _
    · rw [List.find?_cons_of_neg _ (by simp [hm])] at h
      rw [if_neg (by simp), List.find?_cons_of_neg _ (by simp [hm])]
      exact find?_map_update fp title description content rest n h
    · have hfp : m.file_path = fp := by simpa using hm
      rw [@List.find?_cons_of_pos Note (fun x => x.file_path == fp) m rest hm] at h
      rw [Option.some.injEq] at h
      subst h
      rw [if_pos rfl]
      rw [@List.find?_cons_of_pos Note (fun x => x.file_path == fp)
        ⟨m.id, m.file_path, title, description, content⟩ _ hm]
      simp [hfp]

/-- The second upsert of the same path finds the row written by the first
one: it carries the same id and the freshly written fields. -/
theorem upsertNote_result_find (s : Store) (fp : String)
    (title description : Option String) (content : String) :
    (upsertNote s fp title description content).2.notes.find?
        (fun n => n.file_path == fp) =
      some ⟨(upsertNote s fp title description content).1, fp, title,
        description, content⟩ := by
  simp only [upsertNote]
  rcases hfind : s.notes.find? (fun n => n.file_path == fp) with _ | n
  · simp only [hfind]
    rw [List.find?_append, hfind]
    simp
  · simp only [hfind]
    exact find?_map_update fp title description content s.notes n hfind

/-- The freshly inserted chunk rows all belong to the processed note, so
the per-note chunk delete of a re-run removes exactly them. -/
theorem mkChunks_filter_ne (nid : Nat) (cs : List String) (i b : Nat) :
    (mkChunks nid cs i b).filter (fun c => c.note_id != nid) = [] := by
  rw [List.filter_eq_nil_iff]
  intro c hc
  have := (mkChunks_mem nid cs i b c hc).1
  simp [this]

/-- The create and update branches of the change loop run the same code. -/
theorem processChange_update_eq_create (env : Env) (s : Store) (fp : String) :
    processChange env s ⟨.update, fp⟩ = processChange env s ⟨.create, fp⟩ := rfl

/-- Core of the re-ingestion idempotence argument, for a created file: a
second processing of the same unchanged file succeeds and reproduces the
same tags, links and chunk data. -/
theorem processChange_idem_create (env : Env) (s0 : Store) (fp : String)
    (s1 : Store) (calls1 : List (List String))
    (hwf : StoreWF s0)
    (hid : env.noteIdOk fp = true)
    (hrun1 : processChange env s0 ⟨.create, fp⟩ = .ok (s1, calls1)) :
    ∃ s2 calls2, processChange env s1 ⟨.create, fp⟩ = .ok (s2, calls2) ∧
      s2.tags = s1.tags ∧
      s2.notesTags = s1.notesTags ∧
      s2.chunks.map chunkData = s1.chunks.map chunkData := by
  simp only [processChange] at hrun1
  rcases hrp : env.readParse fp with e | pf <;> simp only [hrp] at hrun1
  · simp at hrun1
  · by_cases hempty : (env.splitText pf.content).isEmpty
    · rw [if_pos hempty] at hrun1
      rw [Except.ok.injEq, Prod.mk.injEq] at hrun1
      refine ⟨s1, [], ?_, rfl, rfl, rfl⟩
      simp only [processChange, hrp]
      rw [if_pos hempty]
    · rw [if_neg hempty] at hrun1
      rcases hem : env.embed (env.splitText pf.content) with e | es <;>
        simp only [hem] at hrun1
      · simp at hrun1
      · simp only [hid, Bool.true_eq_false, if_false] at hrun1
        obtain ⟨s1', hins1, heq1⟩ := exceptMap_ok hrun1
        rw [Prod.mk.injEq] at heq1
        obtain ⟨hs1eq, hcalls⟩ := heq1
        rw [hs1eq] at hins1
        subst hcalls
        set cs := env.splitText pf.content with hcs
        set nid := (upsertNote s0 fp pf.title pf.description pf.content).1 with hnid
        set S1 := (upsertNote s0 fp pf.title pf.description pf.content).2 with hS1
        set A := deleteChunksByNoteId S1 nid with hA
        set D := deleteNotesTagsByNoteId A nid with hD
        set T := insertTags nid D pf.tags with hT
        have hupf := upsertNote_fields s0 fp pf.title pf.description pf.content
        have hTf := insertTags_fields nid pf.tags D
        obtain ⟨e1, e2, e3, e4, e5, e6, e7, e8⟩ :=
          insertChunksWithVecs_ok nid es cs 0 T s1 hins1
        have hdims := insertChunksWithVecs_dims nid es cs 0 T s1 hins1
        have hTnotes : T.notes = S1.notes := by
          rw [hTf.1, hD, hA]
          rfl
        have hTchunks : T.chunks = S1.chunks.filter (fun c => c.note_id != nid) := by
          rw [hTf.2.1, hD, hA]
          rfl
        have hTvecs : T.vecChunks = S1.vecChunks.filter
            (fun v => !(S1.chunks.any fun c =>
              c.note_id == nid && c.id == v.chunk_id)) := by
          rw [hTf.2.2.1, hD, hA]
          rfl
        have hTnext : T.nextChunkId = s0.nextChunkId := by
          rw [hTf.2.2.2.2, hD, hA]
          show S1.nextChunkId = s0.nextChunkId
          rw [hS1]
          exact hupf.2.2.2.2.2
        have hS1vecs : S1.vecChunks = s0.vecChunks := hupf.2.2.2.1
        -- second run: the upsert finds the row written by the first one
        have hfind2 : s1.notes.find? (fun n => n.file_path == fp) =
            some ⟨nid, fp, pf.title, pf.description, pf.content⟩ := by
          rw [e1, hTnotes, hS1]
          exact upsertNote_result_find s0 fp pf.title pf.description pf.content
        have hnid2 : (upsertNote s1 fp pf.title pf.description pf.content).1 = nid := by
          simp [upsertNote, hfind2]
        set U2 := (upsertNote s1 fp pf.title pf.description pf.content).2 with hU2
        have hu2f := upsertNote_fields s1 fp pf.title pf.description pf.content
        -- the chunk delete of the second run restores the first-run pre-insert state
        have hchunksFilter : s1.chunks.filter (fun c => c.note_id != nid) = T.chunks := by
          rw [e6, List.filter_append, mkChunks_filter_ne, List.append_nil]
          apply List.filter_eq_self.mpr
          intro c hc
          rw [hTchunks] at hc
          exact (List.mem_filter.mp hc).2
        have hvecBound : ∀ v ∈ T.vecChunks, v.chunk_id < s0.nextChunkId := by
          intro v hv
          rw [hTvecs, hS1vecs] at hv
          exact hwf.vecIdLt v (List.mem_filter.mp hv).1
        have hvecFilter : s1.vecChunks.filter
            (fun v => !(s1.chunks.any fun c =>
              c.note_id == nid && c.id == v.chunk_id)) = T.vecChunks := by
          rw [e7, List.filter_append]
          have hA2 : T.vecChunks.filter
              (fun v => !(s1.chunks.any fun c =>
                c.note_id == nid && c.id == v.chunk_id)) = T.vecChunks := by
            apply List.filter_eq_self.mpr
            intro v hv
            have hvlt := hvecBound v hv
            simp only [Bool.not_eq_true', List.any_eq_false]
            intro c hc
            rw [e6] at hc
            rcases List.mem_append.mp hc with hm | hm
            · rw [hTchunks] at hm
              have := (List.mem_filter.mp hm).2
              simp only [bne_iff_ne, ne_eq] at this
              simp [this]
            · have := (mkChunks_mem nid cs 0 T.nextChunkId c hm).2.1
              rw [hTnext] at this
              have : c.id ≠ v.chunk_id := by omega
              simp [this]
          have hB2 : (mkVecs es cs 0 T.nextChunkId).filter
              (fun v => !(s1.chunks.any fun c =>
                c.note_id == nid && c.id == v.chunk_id)) = [] := by
            rw [List.filter_eq_nil_iff]
            intro v hv
            have hvid : v.chunk_id ∈ (mkChunks nid cs 0 T.nextChunkId).map
                (fun c => c.id) := by
              rw [mkChunks_map_id, ← mkVecs_map_id es cs 0 T.nextChunkId]
              exact List.mem_map.mpr ⟨v, hv, rfl⟩
            obtain ⟨c, hc, hcid⟩ := List.mem_map.mp hvid
            have hcnid := (mkChunks_mem nid cs 0 T.nextChunkId c hc).1
            simp only [Bool.not_eq_true', Bool.not_eq_false]
            apply List.any_eq_true.mpr
            refine ⟨c, ?_, by simp [hcnid, hcid]⟩
            rw [e6]
            exact List.mem_append.mpr (Or.inr hc)
          rw [hA2, hB2, List.append_nil]
        -- the link delete of the second run restores the first-run base
        have hlinksFilter : s1.notesTags.filter (fun l => l.note_id != nid) =
            D.notesTags := by
          rw [e3]
          obtain ⟨L, hL, hLmem⟩ := insertTags_links_append nid pf.tags D
          rw [hT, hL, List.filter_append]
          have h1 : D.notesTags.filter (fun l => l.note_id != nid) = D.notesTags := by
            apply List.filter_eq_self.mpr
            intro l hl
            rw [hD] at hl
            exact (List.mem_filter.mp hl).2
          have h2 : L.filter (fun l => l.note_id != nid) = [] := by
            rw [List.filter_eq_nil_iff]
            intro x hx
            simp [hLmem x hx]
          rw [h1, h2, List.append_nil]
        -- assemble the second-run tag state
        set D2 := deleteNotesTagsByNoteId (deleteChunksByNoteId U2 nid) nid with hD2
        have hD2tags : D2.tags = T.tags := by
          rw [hD2]
          show U2.tags = T.tags
          rw [hu2f.1, e2]
        have hD2links : D2.notesTags = D.notesTags := by
          rw [hD2]
          show ((deleteChunksByNoteId U2 nid).notesTags.filter
            (fun l => l.note_id != nid)) = D.notesTags
          show (U2.notesTags.filter (fun l => l.note_id != nid)) = D.notesTags
          rw [hu2f.2.1]
          exact hlinksFilter
        have hidem := insertTags_idem nid pf.tags D D2 (by rw [hD2tags, hT]) hD2links
        set T2 := insertTags nid D2 pf.tags with hT2
        have hT2tags : T2.tags = s1.tags := by
          rw [hidem.1, hD2tags, e2]
        have hT2links : T2.notesTags = s1.notesTags := by
          rw [hidem.2, e3, hT]
        have hT2f := insertTags_fields nid pf.tags D2
        have hT2chunks : T2.chunks = T.chunks := by
          rw [hT2f.2.1, hD2]
          show (U2.chunks.filter fun c => c.note_id != nid) = T.chunks
          rw [hu2f.2.2.1]
          exact hchunksFilter
        have hT2vecs : T2.vecChunks = T.vecChunks := by
          rw [hT2f.2.2.1, hD2]
          show (U2.vecChunks.filter fun v => !(U2.chunks.any fun c =>
            c.note_id == nid && c.id == v.chunk_id)) = T.vecChunks
          rw [hu2f.2.2.2.1, hu2f.2.2.1]
          exact hvecFilter
        have hT2next : T2.nextChunkId = s0.nextChunkId + cs.length := by
          rw [hT2f.2.2.2.2, hD2]
          show U2.nextChunkId = s0.nextChunkId + cs.length
          rw [hu2f.2.2.2.2.2, e8, hTnext]
        obtain ⟨s2, hins2⟩ := insertChunksWithVecs_isOk nid es cs 0 T2 hdims
          (by
            intro v hv
            rw [hT2vecs] at hv
            rw [hT2next]
            have := hvecBound v hv
            omega)
        obtain ⟨f1, f2, f3, f4, f5, f6, f7, f8⟩ :=
          insertChunksWithVecs_ok nid es cs 0 T2 s2 hins2
        refine ⟨s2, [cs], ?_, ?_, ?_, ?_⟩
        · simp only [processChange, hrp]
          rw [if_neg hempty]
          simp only [hem, hid, Bool.true_eq_false, if_false]
          rw [hnid2, ← hU2, ← hD2, ← hT2, hins2]
          rfl
        · rw [f2]
          exact hT2tags
        · rw [f3]
          exact hT2links
        · rw [f6, e6, List.map_append, List.map_append, hT2chunks]
          congr 1
          exact mkChunks_data nid cs 0 T2.nextChunkId T.nextChunkId

/-- C2: re-ingesting the same unchanged file a second time without a
snapshot update (the retry after a failure) is idempotent: the second
per-document replacement succeeds and leaves the identical tag rows, the
identical document-tag links, and the identical set of stored chunks
(owning note, chunk_index and content; only hidden autoincrement chunk
rowids differ). -/
theorem claim_C2_idempotent_reingest (env : Env) (s0 : Store) (chg : Change)
    (s1 : Store) (calls1 : List (List String))
    (hwf : StoreWF s0)
    (hty : chg.type ≠ .delete)
    (hid : env.noteIdOk chg.filePath = true)
    (hrun1 : processChange env s0 chg = .ok (s1, calls1)) :
    ∃ s2 calls2, processChange env s1 chg = .ok (s2, calls2) ∧
      s2.tags = s1.tags ∧
      s2.notesTags = s1.notesTags ∧
      s2.chunks.map chunkData = s1.chunks.map chunkData := by
  rcases chg with ⟨ty, fp⟩
  rcases ty with _ | _ | _
  · exact processChange_idem_create env s0 fp s1 calls1 hwf hid hrun1
  · rw [processChange_update_eq_create] at hrun1
    obtain ⟨s2, c2, h, h2, h3, h4⟩ :=
      processChange_idem_create env s0 fp s1 calls1 hwf hid hrun1
    refine ⟨s2, c2, ?_, h2, h3, h4⟩
    rw [processChange_update_eq_create]
    exact h
  · exact absurd rfl hty

set_option maxRecDepth 1000000 in
theorem claim_C2_idempotent_reingest_witness :
    ∃ s2 calls2, processChange envA storeA ⟨.create, "a.md"⟩ = .ok (s2, calls2) ∧
      s2.tags = storeA.tags ∧
      s2.notesTags = storeA.notesTags ∧
      s2.chunks.map chunkData = storeA.chunks.map chunkData :=
  claim_C2_idempotent_reingest envA emptyStore ⟨.create, "a.md"⟩ storeA [["hi"]]
    ⟨by decide, by decide, by decide, by decide, by decide⟩
    (by decide) rfl (by rfl)
